import Mathlib

/-!
# Verification of the parametric CRC library

A shallow embedding of the parametric CRC-8/16/32/64 library
(`parametric_crc.h` and `parametric_crc_mini.h`) together with proofs of
the specified properties.

Machine integers of width `w` are modelled as natural numbers kept below
`2 ^ w`; wherever the C++ code truncates (assignment to a `w`-bit unsigned
type, conversion to `uint8`), the embedding takes the value `% 2 ^ w`
(resp. `% 256`).  Byte buffers are modelled as `List Nat` whose elements
are below 256.
-/

namespace crc

/-- Bit reversal of the lowest `w` bits of `v` (bit `0` swaps with bit
`w-1`, and so on).  This models `crc::reverse_bits` of `parametric_crc.h`:
the 16/32/64-bit overloads implement this function with the parallel
swap-mask pyramid and the 8-bit overload with a 256-entry lookup table
whose entries are the bit-reverses of their index. -/
def reverse_bits : Nat → Nat → Nat
  | 0, _ => 0
  | w + 1, v => ((v &&& 1) <<< w) ||| reverse_bits w (v >>> 1)

/-- Models `conditional_reflect<T, CONDITION>::fn`: reverse the bits of a `w`-bit
value when the condition holds, otherwise pass it through. -/
def conditional_reflect (c : Bool) (w v : Nat) : Nat :=
  if c then reverse_bits w v else v

/-- Models `core<WIDTH, false>::MSB_MASK`: the mask of the most significant bit of
a `w`-bit register. -/
def MSB_MASK (w : Nat) : Nat := 1 <<< (w - 1)

/-- One iteration of the loop body of `core<WIDTH, false>::bbb_update`:
the unreflected (MSB-first) CRC shift-register step.  Assignment to the
`w`-bit register truncates, hence the `% 2 ^ w`. -/
def bbb_step (w poly crc : Nat) : Nat :=
  if crc &&& MSB_MASK w ≠ 0 then ((crc <<< 1) ^^^ poly) % 2 ^ w
  else (crc <<< 1) % 2 ^ w

/-- One iteration of the loop body of `core<WIDTH, true>::bbb_update`:
the reflected (LSB-first) CRC shift-register step. -/
def bbb_step_ref (poly crc : Nat) : Nat :=
  if crc &&& 1 ≠ 0 then (crc >>> 1) ^^^ poly
  else crc >>> 1

/-- The `n`-fold iteration of the unreflected shift-register step (the
`for` loop of `core<WIDTH, false>::bbb_update`). -/
def bbb_iter (w poly : Nat) : Nat → Nat → Nat
  | 0, crc => crc
  | n + 1, crc => bbb_iter w poly n (bbb_step w poly crc)

/-- The `n`-fold iteration of the reflected shift-register step (the
`for` loop of `core<WIDTH, true>::bbb_update`). -/
def bbb_iter_ref (poly : Nat) : Nat → Nat → Nat
  | 0, crc => crc
  | n + 1, crc => bbb_iter_ref poly n (bbb_step_ref poly crc)

/-- Models `core<WIDTH, false>::bbb_update`: XOR the byte `b` into the top byte of
the register and run `num_bits` unreflected steps.  `b` is a `uint8`
(hence `% 256`) and the XOR assignment truncates to `w` bits. -/
def bbb_update (w poly crc b num_bits : Nat) : Nat :=
  bbb_iter w poly num_bits (crc ^^^ ((b % 256) <<< (w - 8)) % 2 ^ w)

/-- Models `core<WIDTH, true>::bbb_update`: XOR the byte `b` into the low byte of
the register and run `num_bits` reflected steps. -/
def bbb_update_ref (poly crc b num_bits : Nat) : Nat :=
  bbb_iter_ref poly num_bits (crc ^^^ b % 256)

/-- Models `core<WIDTH, false>::bbb_update_wide`: XOR a full `w`-bit word into the
register and run `w` unreflected steps. -/
def bbb_update_wide (w poly crc b : Nat) : Nat :=
  bbb_iter w poly w (crc ^^^ b)

/-- Models `core<WIDTH, true>::bbb_update_wide`: XOR a full `w`-bit word into the
register and run `w` reflected steps. -/
def bbb_update_wide_ref (w poly crc b : Nat) : Nat :=
  bbb_iter_ref poly w (crc ^^^ b)

/-- Dispatch of `bbb_update_wide` on the register reflection, as done by
the `core<WIDTH, REFLECTED>` template specializations. -/
def core_bbb_update_wide (w : Nat) (ref : Bool) (poly crc b : Nat) : Nat :=
  if ref then bbb_update_wide_ref w poly crc b else bbb_update_wide w poly crc b

/-- Models `core<WIDTH, false>::tableless_update`: absorb a byte sequence with the
bit-by-bit unreflected kernel. -/
def tableless_update (w poly crc : Nat) (data : List Nat) : Nat :=
  data.foldl (fun c b => bbb_update w poly c b 8) crc

/-- Models `core<WIDTH, true>::tableless_update`: absorb a byte sequence with the
bit-by-bit reflected kernel. -/
def tableless_update_ref (poly crc : Nat) (data : List Nat) : Nat :=
  data.foldl (fun c b => bbb_update_ref poly c b 8) crc

/-! ## Table generation (`core<WIDTH, REF>::table_entry`, `generate_table`,
`generate_small_table`) -/

/-- Models `core<WIDTH, false>::table_entry`: value of a single table entry.
The byte argument `index << skip_bits` is converted to `uint8`
(hence `% 256`). -/
def table_entry (w poly index skip_bits : Nat) : Nat :=
  bbb_update w poly 0 ((index <<< skip_bits) % 256) (8 - skip_bits)

/-- Models `core<WIDTH, true>::table_entry`: value of a single table entry of the
reflected table.  `index` is a `uint8` (hence `% 256`). -/
def table_entry_ref (poly index skip_bits : Nat) : Nat :=
  bbb_update_ref poly 0 ((index % 256) >>> skip_bits) (8 - skip_bits)

/-- Contents of the 256-entry array filled by
`core<WIDTH, false>::generate_table` (the fast generator): the first row
(`b < 0x10`) is written directly via `table_entry(poly, b, 4)` (with
`entries[0] = 0 = table_entry(poly, 0, 4)`), and the remaining 15 rows are
filled with `entries[k ^ i] = entries[k] ^ entries[i]` where `k = b & 0xf0`
(written as `table_entry(poly, k, 0)`) and `i = b & 0x0f`. -/
def generate_table (w poly b : Nat) : Nat :=
  if b < 0x10 then table_entry w poly b 4
  else table_entry w poly (b &&& 0xf0) 0 ^^^ table_entry w poly (b &&& 0x0f) 4

/-- Contents of the 256-entry array filled by
`core<WIDTH, true>::generate_table`: the first row (`b < 0x10`) is
`table_entry(poly, b, 0)` (with `entries[0] = 0`), and the remaining rows
follow `entries[k ^ i] = entries[k] ^ entries[i]` with
`entries[k] = table_entry(poly, k, 4)` for `k = b & 0xf0`. -/
def generate_table_ref (poly b : Nat) : Nat :=
  if b < 0x10 then table_entry_ref poly b 0
  else table_entry_ref poly (b &&& 0xf0) 4 ^^^ table_entry_ref poly (b &&& 0x0f) 0

/-- Dispatch of the full-table generator on the register reflection. -/
def core_generate_table (w : Nat) (ref : Bool) (poly b : Nat) : Nat :=
  if ref then generate_table_ref poly b else generate_table w poly b

/-- The `first_row` filled by `core<WIDTH, false>::generate_small_table`
(with `first_row[0] = 0 = table_entry(poly, 0, 4)`). -/
def small_first_row (w poly i : Nat) : Nat := table_entry w poly i 4

/-- The `first_column` filled by `core<WIDTH, false>::generate_small_table`
(with `first_column[0] = 0 = table_entry(poly, 0, 0)`); the stored entry
for nibble `k` is `table_entry(poly, k << 4, 0)`. -/
def small_first_column (w poly k : Nat) : Nat :=
  table_entry w poly ((k <<< 4) % 256) 0

/-- The `first_row` filled by `core<WIDTH, true>::generate_small_table`. -/
def small_first_row_ref (poly i : Nat) : Nat := table_entry_ref poly i 0

/-- The `first_column` filled by `core<WIDTH, true>::generate_small_table`. -/
def small_first_column_ref (poly k : Nat) : Nat :=
  table_entry_ref poly ((k <<< 4) % 256) 4

/-- Models `basic_small_table::operator[]`: reconstruct entry `index` of a small
table as `first_row[index & 0x0f] ^ first_column[index >> 4]`, for the
small table generated for `(w, poly, ref)`. -/
def small_table_at (w : Nat) (ref : Bool) (poly index : Nat) : Nat :=
  if ref then
    small_first_row_ref poly (index &&& 0x0f) ^^^ small_first_column_ref poly (index >>> 4)
  else
    small_first_row w poly (index &&& 0x0f) ^^^ small_first_column w poly (index >>> 4)

/-! ## Table-driven update (`table_based_crc_updater`) -/

/-- Models `table_based_crc_updater<T, REF, IS_UINT8>::update` for one byte, with
the lookup table passed as a function from byte index to entry.  The three
template specializations: `sizeof(T) == 1` (i.e. `w = 8`) indexes
`table[crc ^ b]`; `sizeof(T) > 1` unreflected indexes with the top
register byte and shifts up; reflected indexes with the low register byte
and shifts down.  Index expressions are converted to `uint8`
(hence `% 256`). -/
def table_based_update_byte (w : Nat) (ref : Bool) (tbl : Nat → Nat) (crc b : Nat) : Nat :=
  if w = 8 then tbl ((crc ^^^ (b % 256)) % 256)
  else if ref then tbl (((crc &&& 0xff) ^^^ (b % 256)) % 256) ^^^ (crc >>> 8)
  else tbl (((crc >>> (w - 8)) ^^^ (b % 256)) % 256) ^^^ ((crc <<< 8) % 2 ^ w)

/-- Models `core<WIDTH, REF>::table_based_update` over a byte sequence. -/
def table_based_update (w : Nat) (ref : Bool) (tbl : Nat → Nat) (crc : Nat)
    (data : List Nat) : Nat :=
  data.foldl (table_based_update_byte w ref tbl) crc

/-! ## The `cfg` of a CRC model and the residue constant -/

/-- The `crc::cfg` template: the seven parameters of a CRC model. -/
structure cfg where
  WIDTH : Nat
  POLY : Nat
  INIT : Nat
  XOR_OUT : Nat
  REF_IN : Bool
  REF_OUT : Bool
  REF_REG : Bool

/-- Models `cfg::ACTUAL_POLY`: the polynomial in the register convention. -/
def cfg.ACTUAL_POLY (c : cfg) : Nat :=
  conditional_reflect c.REF_REG c.WIDTH c.POLY

/-- Models `cfg::ACTUAL_INIT`: the initial register value in the register
convention. -/
def cfg.ACTUAL_INIT (c : cfg) : Nat :=
  conditional_reflect c.REF_REG c.WIDTH c.INIT

/-- Models `crc::parametric<W, POLY, INIT, XOR_OUT, REF_IN>` with the defaulted
template parameters `REF_OUT = REF_IN` and `REF_REG = REF_IN`. -/
def parametric (w poly i x : Nat) (ref_in : Bool) : cfg :=
  ⟨w, poly, i, x, ref_in, ref_in, ref_in⟩

/-- Models `residue_const_calculator<CFG>::residue_const`: reflect `XOR_OUT` when
`REF_REG != REF_OUT`, feed `WIDTH` zero bits through the wide kernel
update with `ACTUAL_POLY`, and reflect the result when
`REF_REG != REF_IN`. -/
def residue_const (c : cfg) : Nat :=
  conditional_reflect (c.REF_REG != c.REF_IN) c.WIDTH
    (core_bbb_update_wide c.WIDTH c.REF_REG c.ACTUAL_POLY
      (conditional_reflect (c.REF_REG != c.REF_OUT) c.WIDTH c.XOR_OUT) 0)

/-! ## The five calculation strategies and the `impl` facade -/

/-- The five calculation strategies of the library. -/
inductive strategy
  | tableless
  | table_based
  | small_table_based
  | ext_table_based
  | ext_small_table_based

/-- Models `core<WIDTH, REF>::tableless_update` dispatched on the register
reflection, with the engine polynomial of the model. -/
def core_tableless_update (w : Nat) (ref : Bool) (poly crc : Nat) (data : List Nat) : Nat :=
  if ref then tableless_update_ref poly crc data else tableless_update w poly crc data

/-- Models an `impl_ext`-style update with a caller-supplied full table
(`updater_ext_table_based`). -/
def ext_table_based_update (c : cfg) (tbl : Nat → Nat) (crc : Nat) (data : List Nat) : Nat :=
  table_based_update c.WIDTH c.REF_REG tbl crc data

/-- Models an `impl_ext`-style update with a caller-supplied small table
(`updater_ext_small_table_based`); the table is read through
`basic_small_table::operator[]`, so it is again a function from byte
index to entry. -/
def ext_small_table_based_update (c : cfg) (tbl : Nat → Nat) (crc : Nat)
    (data : List Nat) : Nat :=
  table_based_update c.WIDTH c.REF_REG tbl crc data

/-- The updater of each strategy (before the input-reflection adapter).
The owned-table strategies use the singleton table generated for
`(WIDTH, ACTUAL_POLY, REF_REG)`; for the external-table strategies this
definition passes the default-constructed external table, which is filled
by the same generator. -/
def updater_update (c : cfg) : strategy → Nat → List Nat → Nat
  | .tableless => core_tableless_update c.WIDTH c.REF_REG c.ACTUAL_POLY
  | .table_based =>
      table_based_update c.WIDTH c.REF_REG (core_generate_table c.WIDTH c.REF_REG c.ACTUAL_POLY)
  | .small_table_based =>
      table_based_update c.WIDTH c.REF_REG (small_table_at c.WIDTH c.REF_REG c.ACTUAL_POLY)
  | .ext_table_based =>
      ext_table_based_update c (core_generate_table c.WIDTH c.REF_REG c.ACTUAL_POLY)
  | .ext_small_table_based =>
      ext_small_table_based_update c (small_table_at c.WIDTH c.REF_REG c.ACTUAL_POLY)

/-- Models `impl::update` (and `impl_ext::update`): the input-reflection adapter
(`impl_input_reverser`) reverses the bits of every input byte when
`REF_IN != REF_REG`, then hands the bytes to the strategy updater. -/
def impl_update (c : cfg) (s : strategy) (crc : Nat) (data : List Nat) : Nat :=
  if c.REF_IN != c.REF_REG then
    updater_update c s crc (data.map (fun b => reverse_bits 8 b))
  else updater_update c s crc data

/-- Models `impl::interim`: the raw register. -/
def impl_interim (crc : Nat) : Nat := crc

/-- Models `impl::residue`: the register with its bits reversed within the width
when `REF_REG != REF_OUT`. -/
def impl_residue (c : cfg) (crc : Nat) : Nat :=
  conditional_reflect (c.REF_REG != c.REF_OUT) c.WIDTH crc

/-- Models `impl::final`: `residue() ^ XOR_OUT`. -/
def impl_final (c : cfg) (crc : Nat) : Nat :=
  impl_residue c crc ^^^ c.XOR_OUT

/-- Models `impl::calculate`: construct (register `= ACTUAL_INIT`), update with
the whole input, and return `final()`. -/
def impl_calculate (c : cfg) (s : strategy) (data : List Nat) : Nat :=
  impl_final c (impl_update c s c.ACTUAL_INIT data)

/-- One-shot `calculate` of the default (`table_based`) mode, which is what
`crc::parametric<...>::calculate` runs. -/
def calculate (c : cfg) (data : List Nat) : Nat :=
  impl_calculate c .table_based data

/-! ## The mini library (`parametric_crc_mini.h`) -/

/-- Entry `index` of `crc::lookup_table<T, REF_POLY, REF>` of the mini
library: start from `index` (reflected) or `reverse_bits(uint8(index))`
(unreflected), run 8 iterations of the reflected step with `REF_POLY`
(the mini library's loop body coincides with the reflected bit-by-bit
step of the full library), and reverse the result within the width in the
unreflected case. -/
def mini_lookup_table (w ref_poly : Nat) (ref : Bool) (index : Nat) : Nat :=
  if ref then bbb_iter_ref ref_poly 8 index
  else reverse_bits w (bbb_iter_ref ref_poly 8 (reverse_bits 8 index))

/-- One byte of the loop of mini `base<...>::calculate`.  Unreflected:
`crc = tbl[(crc >> (w-8)) ^ *p] ^ (crc << 4 << 4)`; reflected:
`crc = tbl[uint8_t(crc) ^ *p] ^ (crc >> 4 >> 4)`.  Index expressions are
converted to `uint8` (hence `% 256`), and assignment truncates to `w`
bits. -/
def mini_update_byte (w : Nat) (ref : Bool) (tbl : Nat → Nat) (crc b : Nat) : Nat :=
  if ref then tbl (((crc % 256) ^^^ (b % 256)) % 256) ^^^ ((crc >>> 4) >>> 4)
  else tbl (((crc >>> (w - 8)) ^^^ (b % 256)) % 256) ^^^ (((crc <<< 4) <<< 4) % 2 ^ w)

/-- Mini `base<T, POLY, INIT, XOR_OUT, REF_IN, REF_OUT>::calculate` with an
explicit starting register and `interim` flag.  The lookup table is the
static `lookup_table<T, reverse_bits(POLY), REF_IN>`. -/
def mini_calculate_from (w poly xor_out : Nat) (ref_in ref_out : Bool)
    (data : List Nat) (interim : Bool) (crc : Nat) : Nat :=
  let crc2 := data.foldl (mini_update_byte w ref_in (mini_lookup_table w (reverse_bits w poly) ref_in)) crc
  if interim then crc2
  else
    (if ref_in then (if ref_out then crc2 else reverse_bits w crc2)
     else (if ref_out then reverse_bits w crc2 else crc2)) ^^^ xor_out

/-- Default register of a mini `crc::parametric` instance:
`REF_IN ? reverse_bits(INIT) : INIT`. -/
def mini_default_interim (w i : Nat) (ref_in : Bool) : Nat :=
  if ref_in then reverse_bits w i else i

/-- Mini `crc::parametric::update`: `calculate(..., interim = true, _crc)`. -/
def mini_update (w poly : Nat) (ref_in : Bool) (crc : Nat) (data : List Nat) : Nat :=
  mini_calculate_from w poly 0 ref_in ref_in data true crc

/-- Mini `crc::parametric::residue`: reverse the register within the width
when `REF_IN != REF_OUT`. -/
def mini_residue (w : Nat) (ref_in ref_out : Bool) (crc : Nat) : Nat :=
  if ref_in != ref_out then reverse_bits w crc else crc

/-- Mini `crc::parametric::final`: `residue() ^ XOR_OUT`. -/
def mini_final (w xor_out : Nat) (ref_in ref_out : Bool) (crc : Nat) : Nat :=
  mini_residue w ref_in ref_out crc ^^^ xor_out

/-- Mini one-shot `crc::parametric::calculate`. -/
def mini_calculate (w poly i xor_out : Nat) (ref_in ref_out : Bool) (data : List Nat) : Nat :=
  mini_calculate_from w poly xor_out ref_in ref_out data false (mini_default_interim w i ref_in)

/-! ## Catalog models and inputs referenced by the scenarios -/

/-- CRC-8/SMBUS (`crc8::smbus`). -/
def crc8_smbus : cfg := parametric 8 0x07 0x00 0x00 false

/-- CRC-8/SAE-J1850 (`crc8::sae_j1850`). -/
def crc8_sae_j1850 : cfg := parametric 8 0x1d 0xff 0xff false

/-- CRC-16/KERMIT (`crc16::kermit`). -/
def crc16_kermit : cfg := parametric 16 0x1021 0x0000 0x0000 true

/-- CRC-16/IBM-SDLC (`crc16::ibm_sdlc`). -/
def crc16_ibm_sdlc : cfg := parametric 16 0x1021 0xffff 0xffff true

/-- CRC-32/ISO-HDLC (`crc32::iso_hdlc`). -/
def crc32_iso_hdlc : cfg := parametric 32 0x04c11db7 0xffffffff 0xffffffff true

/-- CRC-32/BZIP2 (`crc32::bzip2`). -/
def crc32_bzip2 : cfg := parametric 32 0x04c11db7 0xffffffff 0xffffffff false

/-- CRC-64/XZ (`crc64::xz`). -/
def crc64_xz : cfg :=
  parametric 64 0x42f0e1eba9ea3693 0xffffffffffffffff 0xffffffffffffffff true

/-- The standard check input, the ASCII bytes of the string "123456789". -/
def check_input : List Nat := [0x31, 0x32, 0x33, 0x34, 0x35, 0x36, 0x37, 0x38, 0x39]

/-- Residue derivation as the spec's §4.8 words it: start from `xor_out`,
bit-reverse within the width iff `ref_reg ≠ ref_out`, iterate the
shift-register step with `actual_poly` exactly `width` times (the wide
kernel update on the word 0), and bit-reverse iff `ref_reg ≠ ref_in`. -/
def residue_spec (c : cfg) : Nat :=
  conditional_reflect (c.REF_REG != c.REF_IN) c.WIDTH
    (if c.REF_REG then
      bbb_iter_ref c.ACTUAL_POLY c.WIDTH
        (conditional_reflect (c.REF_REG != c.REF_OUT) c.WIDTH c.XOR_OUT)
     else
      bbb_iter c.WIDTH c.ACTUAL_POLY c.WIDTH
        (conditional_reflect (c.REF_REG != c.REF_OUT) c.WIDTH c.XOR_OUT))

/-! ## The residue law for codewords -/

/-- Little-endian byte decomposition of the low `8 * m` bits of a value. -/
def le_bytes : Nat → Nat → List Nat
  | 0, _ => []
  | m + 1, v => (v &&& 0xff) :: le_bytes m (v >>> 8)

/-- The CRC value appended to a dataword in the model's transmission order
(§6 of the spec, implemented by the test driver): bit-reverse the value
within the width iff `REF_IN ≠ REF_OUT`, then append its `WIDTH / 8` bytes
little-endian when `REF_IN` holds and big-endian otherwise. -/
def crc_append_bytes (c : cfg) (d : Nat) : List Nat :=
  if c.REF_IN then
    le_bytes (c.WIDTH / 8) (conditional_reflect (c.REF_IN != c.REF_OUT) c.WIDTH d)
  else
    (le_bytes (c.WIDTH / 8) (conditional_reflect (c.REF_IN != c.REF_OUT) c.WIDTH d)).reverse

/-- A user-definable crossed model (`REF_IN ≠ REF_OUT`):
`crc::parametric<8, 0x07, 0x00, 0x0f, false, true, false>`. -/
def crossed_model : cfg := ⟨8, 0x07, 0x00, 0x0f, false, true, false⟩

/-! ## Basic bit-level lemmas -/

theorem testBit_reverse_bits (w : Nat) : ∀ v i : Nat,
    (reverse_bits w v).testBit i = (decide (i < w) && v.testBit (w - 1 - i)) := by
  induction w with
  | zero => intro v i; simp [reverse_bits]
  | succ w ih =>
    intro v i
    have h1 : v &&& 1 = v % 2 ^ 1 := by
      have h := Nat.and_pow_two_sub_one_eq_mod v 1
      norm_num at h
      norm_num [h]
    simp only [reverse_bits, Nat.testBit_or, Nat.testBit_shiftLeft, ih]
    rcases Nat.lt_trichotomy i w with hlt | heq | hgt
    · have : ¬ (i ≥ w) := by omega
      have h2 : (1 : Nat) + (w - 1 - i) = w + 1 - 1 - i := by omega
      simp [this, hlt, Nat.testBit_shiftRight, h2, Nat.lt_succ_of_lt hlt]
    · subst heq
      simp [h1, Nat.testBit_mod_two_pow, Nat.lt_succ_self]
    · have h3 : ¬ (i < w) := by omega
      have h4 : ¬ (i < w + 1) := by omega
      have hb : (v % 2).testBit (i - w) = false := by
        apply Nat.testBit_lt_two_pow
        calc v % 2 < 2 ^ 1 := by omega
          _ ≤ 2 ^ (i - w) := Nat.pow_le_pow_right (by norm_num) (by omega)
      simp [h3, h4, hb]

theorem reverse_bits_lt (w v : Nat) : reverse_bits w v < 2 ^ w := by
  induction w generalizing v with
  | zero => simp [reverse_bits]
  | succ w ih =>
    apply Nat.or_lt_two_pow
    · have h1 : v &&& 1 < 2 := by
        have := Nat.and_lt_two_pow v (show (1:Nat) < 2 ^ 1 by norm_num)
        simpa using this
      calc (v &&& 1) <<< w = (v &&& 1) * 2 ^ w := Nat.shiftLeft_eq _ _
        _ < 2 * 2 ^ w := by
            exact Nat.mul_lt_mul_of_lt_of_le h1 (Nat.le_refl _) (Nat.two_pow_pos w)
        _ = 2 ^ (w + 1) := by ring
    · exact Nat.lt_trans (ih _) (Nat.pow_lt_pow_right (by norm_num) (Nat.lt_succ_self w))

theorem testBit_reverse_bits_of_lt {w v i : Nat} (h : i < w) :
    (reverse_bits w v).testBit i = v.testBit (w - 1 - i) := by
  simp [testBit_reverse_bits, h]

theorem reverse_bits_xor (w x y : Nat) :
    reverse_bits w (x ^^^ y) = reverse_bits w x ^^^ reverse_bits w y := by
  apply Nat.eq_of_testBit_eq
  intro i
  simp [testBit_reverse_bits, Bool.and_xor_distrib_left]

theorem reverse_bits_reverse_bits {w v : Nat} (h : v < 2 ^ w) :
    reverse_bits w (reverse_bits w v) = v := by
  apply Nat.eq_of_testBit_eq
  intro i
  by_cases hi : i < w
  · rw [testBit_reverse_bits_of_lt hi, testBit_reverse_bits_of_lt (by omega)]
    congr 1
    omega
  · have h1 : reverse_bits w (reverse_bits w v) < 2 ^ i :=
      Nat.lt_of_lt_of_le (reverse_bits_lt _ _)
        (Nat.pow_le_pow_right (by norm_num) (by omega))
    have h2 : v < 2 ^ i :=
      Nat.lt_of_lt_of_le h (Nat.pow_le_pow_right (by norm_num) (by omega))
    rw [Nat.testBit_lt_two_pow h1, Nat.testBit_lt_two_pow h2]

theorem xor_mod_two_pow (x y n : Nat) :
    (x ^^^ y) % 2 ^ n = x % 2 ^ n ^^^ y % 2 ^ n := by
  apply Nat.eq_of_testBit_eq
  intro i
  by_cases hi : i < n <;>
    simp [Nat.testBit_mod_two_pow, hi, Bool.and_xor_distrib_left]

theorem shiftLeft_xor (x y n : Nat) :
    (x ^^^ y) <<< n = x <<< n ^^^ y <<< n := by
  apply Nat.eq_of_testBit_eq
  intro i
  by_cases hi : i ≥ n <;> simp [Nat.testBit_shiftLeft, hi]

theorem shiftRight_xor (x y n : Nat) :
    (x ^^^ y) >>> n = x >>> n ^^^ y >>> n := by
  apply Nat.eq_of_testBit_eq
  intro i
  simp [Nat.testBit_shiftRight]

theorem and_two_pow_ne_zero_iff (x k : Nat) :
    (x &&& 2 ^ k ≠ 0) ↔ x.testBit k := by
  constructor
  · intro h
    obtain ⟨i, hi⟩ := Nat.ne_zero_implies_bit_true h
    rw [Nat.testBit_and, Nat.testBit_two_pow] at hi
    rcases Bool.and_eq_true .. |>.mp hi with ⟨h1, h2⟩
    have : k = i := of_decide_eq_true h2
    subst this
    exact h1
  · intro h
    have h1 : (x &&& 2 ^ k).testBit k = true := by
      simp [Nat.testBit_and, h, Nat.testBit_two_pow]
    intro h0
    rw [h0] at h1
    simp [Nat.zero_testBit] at h1

theorem and_msb_ne_zero_iff (x w : Nat) :
    (x &&& MSB_MASK w ≠ 0) ↔ x.testBit (w - 1) := by
  have : MSB_MASK w = 2 ^ (w - 1) := by
    simp [MSB_MASK, Nat.shiftLeft_eq]
  rw [this]
  exact and_two_pow_ne_zero_iff x (w - 1)

theorem and_one_ne_zero_iff (x : Nat) : (x &&& 1 ≠ 0) ↔ x.testBit 0 := by
  have h := and_two_pow_ne_zero_iff x 0
  rw [pow_zero] at h
  exact h

/-! ## Additivity and shift behaviour of the kernels -/

/-- Closed form of the unreflected step: shift, then conditionally XOR the
(truncated) polynomial. -/
theorem bbb_step_eq (w poly crc : Nat) :
    bbb_step w poly crc =
      (crc <<< 1) % 2 ^ w ^^^ (if crc.testBit (w - 1) then poly % 2 ^ w else 0) := by
  by_cases h : crc.testBit (w - 1)
  · have h' : crc &&& MSB_MASK w ≠ 0 := (and_msb_ne_zero_iff ..).mpr h
    simp [bbb_step, h', h, xor_mod_two_pow]
  · have h' : ¬ (crc &&& MSB_MASK w ≠ 0) := by
      rw [and_msb_ne_zero_iff]
      simpa using h
    simp [bbb_step, h', h]

/-- Closed form of the reflected step. -/
theorem bbb_step_ref_eq (poly crc : Nat) :
    bbb_step_ref poly crc = crc >>> 1 ^^^ (if crc.testBit 0 then poly else 0) := by
  unfold bbb_step_ref
  by_cases h : crc.testBit 0
  · rw [if_pos ((and_one_ne_zero_iff _).mpr h), if_pos h]
  · have h' : ¬ (crc &&& 1 ≠ 0) := by
      rw [and_one_ne_zero_iff]
      simpa using h
    rw [if_neg h', if_neg h, Nat.xor_zero]

theorem xor4_swap (a b c d : Nat) : (a ^^^ b) ^^^ (c ^^^ d) = (a ^^^ c) ^^^ (b ^^^ d) := by
  apply Nat.eq_of_testBit_eq
  intro i
  have h : ∀ p q r s : Bool,
      Bool.xor (Bool.xor p q) (Bool.xor r s) = Bool.xor (Bool.xor p r) (Bool.xor q s) := by
    decide
  simp only [Nat.testBit_xor, h]

theorem ite_xor_ite (P : Nat) (a b : Bool) :
    (if (a ^^ b) = true then P else 0) =
      (if a = true then P else 0) ^^^ (if b = true then P else 0) := by
  cases a <;> cases b <;> simp [Nat.xor_self]

theorem bbb_step_xor (w poly x y : Nat) :
    bbb_step w poly (x ^^^ y) = bbb_step w poly x ^^^ bbb_step w poly y := by
  simp only [bbb_step_eq, Nat.testBit_xor, shiftLeft_xor, xor_mod_two_pow, ite_xor_ite]
  exact xor4_swap ..

theorem bbb_step_ref_xor (poly x y : Nat) :
    bbb_step_ref poly (x ^^^ y) = bbb_step_ref poly x ^^^ bbb_step_ref poly y := by
  simp only [bbb_step_ref_eq, Nat.testBit_xor, shiftRight_xor, ite_xor_ite]
  exact xor4_swap ..

theorem bbb_iter_xor (w poly : Nat) : ∀ n x y,
    bbb_iter w poly n (x ^^^ y) = bbb_iter w poly n x ^^^ bbb_iter w poly n y := by
  intro n
  induction n with
  | zero => intro x y; rfl
  | succ n ih =>
    intro x y
    simp only [bbb_iter, bbb_step_xor, ih]

theorem bbb_iter_ref_xor (poly : Nat) : ∀ n x y,
    bbb_iter_ref poly n (x ^^^ y) = bbb_iter_ref poly n x ^^^ bbb_iter_ref poly n y := by
  intro n
  induction n with
  | zero => intro x y; rfl
  | succ n ih =>
    intro x y
    simp only [bbb_iter_ref, bbb_step_ref_xor, ih]

theorem bbb_iter_add (w poly : Nat) : ∀ m n x,
    bbb_iter w poly (m + n) x = bbb_iter w poly n (bbb_iter w poly m x) := by
  intro m
  induction m with
  | zero => intro n x; rw [Nat.zero_add]; rfl
  | succ m ih =>
    intro n x
    have h : m + 1 + n = (m + n) + 1 := by omega
    rw [h]
    simp only [bbb_iter]
    rw [ih]

theorem bbb_iter_ref_add (poly : Nat) : ∀ m n x,
    bbb_iter_ref poly (m + n) x = bbb_iter_ref poly n (bbb_iter_ref poly m x) := by
  intro m
  induction m with
  | zero => intro n x; rw [Nat.zero_add]; rfl
  | succ m ih =>
    intro n x
    have h : m + 1 + n = (m + n) + 1 := by omega
    rw [h]
    simp only [bbb_iter_ref]
    rw [ih]

theorem bbb_step_lt (w poly crc : Nat) : bbb_step w poly crc < 2 ^ w := by
  unfold bbb_step
  split <;> exact Nat.mod_lt _ (Nat.two_pow_pos w)

theorem bbb_iter_lt {w poly n crc : Nat} (h : crc < 2 ^ w) :
    bbb_iter w poly n crc < 2 ^ w := by
  induction n generalizing crc with
  | zero => exact h
  | succ n ih => exact ih (bbb_step_lt w poly crc)

theorem bbb_step_ref_lt {w poly crc : Nat} (hp : poly < 2 ^ w) (h : crc < 2 ^ w) :
    bbb_step_ref poly crc < 2 ^ w := by
  unfold bbb_step_ref
  have hs : crc >>> 1 < 2 ^ w :=
    Nat.lt_of_le_of_lt (by simpa [Nat.shiftRight_eq_div_pow] using Nat.div_le_self crc 2) h
  split
  · exact Nat.xor_lt_two_pow hs hp
  · exact hs

theorem bbb_iter_ref_lt {w poly n crc : Nat} (hp : poly < 2 ^ w) (h : crc < 2 ^ w) :
    bbb_iter_ref poly n crc < 2 ^ w := by
  induction n generalizing crc with
  | zero => exact h
  | succ n ih => exact ih (bbb_step_ref_lt hp h)

/-- While the top `n` bits of the register are clear, `n` unreflected steps
are a plain left shift by `n`. -/
theorem bbb_iter_shift {w poly : Nat} : ∀ n x, n ≤ w → x < 2 ^ (w - n) →
    bbb_iter w poly n x = x <<< n := by
  intro n
  induction n with
  | zero => intro x _ _; simp [bbb_iter]
  | succ n ih =>
    intro x hn hx
    have htop : x.testBit (w - 1) = false := by
      apply Nat.testBit_lt_two_pow
      exact Nat.lt_of_lt_of_le hx (Nat.pow_le_pow_right (by norm_num) (by omega))
    have hcond : ¬ (x &&& MSB_MASK w ≠ 0) := by
      rw [and_msb_ne_zero_iff, htop]
      simp
    have hxs : x <<< 1 < 2 ^ (w - n) := by
      rw [Nat.shiftLeft_eq, pow_one]
      calc x * 2 < 2 ^ (w - (n + 1)) * 2 := by omega
        _ = 2 ^ (w - (n + 1) + 1) := by ring
        _ ≤ 2 ^ (w - n) := Nat.pow_le_pow_right (by norm_num) (by omega)
    have hxw : x <<< 1 < 2 ^ w :=
      Nat.lt_of_lt_of_le hxs (Nat.pow_le_pow_right (by norm_num) (by omega))
    have hstep : bbb_step w poly x = x <<< 1 := by
      unfold bbb_step
      rw [if_neg hcond, Nat.mod_eq_of_lt hxw]
    simp only [bbb_iter, hstep]
    rw [ih (x <<< 1) (by omega) hxs]
    rw [Nat.shiftLeft_eq, Nat.shiftLeft_eq, Nat.shiftLeft_eq]
    ring

/-- While the low `n` bits of the register are clear, `n` reflected steps
are a plain right shift by `n`. -/
theorem bbb_iter_ref_shift {poly : Nat} : ∀ n x, x % 2 ^ n = 0 →
    bbb_iter_ref poly n x = x >>> n := by
  intro n
  induction n with
  | zero => intro x _; simp [bbb_iter_ref]
  | succ n ih =>
    intro x hx
    obtain ⟨k, hk⟩ := Nat.dvd_of_mod_eq_zero hx
    have hbit : x.testBit 0 = false := by
      have h2 : x % 2 = 0 := by
        apply Nat.mod_eq_zero_of_dvd
        exact dvd_trans (dvd_pow_self 2 (Nat.succ_ne_zero n)) (Nat.dvd_of_mod_eq_zero hx)
      simp [Nat.testBit_zero, h2]
    have hcond : ¬ (x &&& 1 ≠ 0) := by
      rw [and_one_ne_zero_iff, hbit]
      simp
    have hhalf : x >>> 1 = 2 ^ n * k := by
      rw [Nat.shiftRight_eq_div_pow, pow_one, hk, pow_succ,
        Nat.mul_comm (2 ^ n) 2, Nat.mul_assoc, Nat.mul_div_cancel_left _ (by norm_num)]
    have hnext : (x >>> 1) % 2 ^ n = 0 := by
      rw [hhalf]
      exact Nat.mul_mod_right _ _
    have hstep : bbb_step_ref poly x = x >>> 1 := by
      unfold bbb_step_ref
      rw [if_neg hcond]
    simp only [bbb_iter_ref, hstep]
    rw [ih (x >>> 1) hnext, Nat.shiftRight_eq_div_pow, Nat.shiftRight_eq_div_pow,
      Nat.shiftRight_eq_div_pow, pow_one, pow_succ, Nat.mul_comm (2 ^ n) 2,
      Nat.div_div_eq_div_mul]

/-! ## The table-driven update agrees with the bit-by-bit kernel -/

theorem bbb_step_zero (w poly : Nat) : bbb_step w poly 0 = 0 := by
  simp [bbb_step]

theorem bbb_iter_zero (w poly n : Nat) : bbb_iter w poly n 0 = 0 := by
  induction n with
  | zero => rfl
  | succ n ih => simp only [bbb_iter, bbb_step_zero, ih]

theorem bbb_step_ref_zero (poly : Nat) : bbb_step_ref poly 0 = 0 := by
  simp [bbb_step_ref]

theorem bbb_iter_ref_zero (poly n : Nat) : bbb_iter_ref poly n 0 = 0 := by
  induction n with
  | zero => rfl
  | succ n ih => simp only [bbb_iter_ref, bbb_step_ref_zero, ih]

theorem bbb_iter_pos_lt {w poly n x : Nat} (hn : 0 < n) : bbb_iter w poly n x < 2 ^ w := by
  cases n with
  | zero => omega
  | succ n =>
    simp only [bbb_iter]
    exact bbb_iter_lt (bbb_step_lt w poly x)

/-- Splitting a value into its top bits and its low `n` bits. -/
theorem hi_xor_lo (x n : Nat) : ((x >>> n) <<< n) ^^^ (x % 2 ^ n) = x := by
  apply Nat.eq_of_testBit_eq
  intro i
  by_cases hi : i < n
  · have h1 : ¬ (i ≥ n) := by omega
    simp [Nat.testBit_shiftLeft, Nat.testBit_mod_two_pow, h1, hi]
  · have h1 : i ≥ n := by omega
    have h2 : n + (i - n) = i := by omega
    simp [Nat.testBit_shiftLeft, Nat.testBit_shiftRight, Nat.testBit_mod_two_pow, h1, hi, h2]

theorem shiftLeft_mod_two_pow (x k n : Nat) :
    (x <<< k) % 2 ^ (n + k) = (x % 2 ^ n) <<< k := by
  apply Nat.eq_of_testBit_eq
  intro i
  by_cases hk : i ≥ k
  · have h2 : (i - k < n) ↔ (i < n + k) := by omega
    by_cases h3 : i < n + k <;>
      simp [Nat.testBit_shiftLeft, Nat.testBit_mod_two_pow, hk, h3, h2.mpr, h2]
  · simp [Nat.testBit_shiftLeft, Nat.testBit_mod_two_pow, hk]

theorem shiftLeft_lt_two_pow {x m : Nat} (h : x < 2 ^ m) (k : Nat) :
    x <<< k < 2 ^ (m + k) := by
  rw [Nat.shiftLeft_eq, pow_add]
  exact Nat.mul_lt_mul_of_lt_of_le h (Nat.le_refl _) (Nat.two_pow_pos k)

theorem byte_shiftLeft_lt {w b : Nat} (hw : 8 ≤ w) (hb : b < 256) :
    b <<< (w - 8) < 2 ^ w := by
  have h := shiftLeft_lt_two_pow (show b < 2 ^ 8 from hb) (w - 8)
  have h2 : 8 + (w - 8) = w := by omega
  rw [h2] at h
  exact h

theorem shiftRight_lt_of_lt {x w n : Nat} (h : x < 2 ^ w) (hn : n ≤ w) :
    x >>> (w - n) < 2 ^ n := by
  rw [Nat.shiftRight_eq_div_pow]
  apply Nat.div_lt_of_lt_mul
  calc x < 2 ^ w := h
    _ = 2 ^ (w - n) * 2 ^ n := by rw [← pow_add]; congr 1; omega

/-- Rewrites `bbb_update` over a whole byte in closed form (no truncations). -/
theorem bbb_update_eq {w : Nat} (poly crc b : Nat) (hw : 8 ≤ w) (hb : b < 256) :
    bbb_update w poly crc b 8 = bbb_iter w poly 8 (crc ^^^ b <<< (w - 8)) := by
  unfold bbb_update
  rw [Nat.mod_eq_of_lt hb, Nat.mod_eq_of_lt (byte_shiftLeft_lt hw hb)]

theorem bbb_update_ref_eq (poly crc b : Nat) (hb : b < 256) :
    bbb_update_ref poly crc b 8 = bbb_iter_ref poly 8 (crc ^^^ b) := by
  unfold bbb_update_ref
  rw [Nat.mod_eq_of_lt hb]

theorem table_entry_zero_index (w poly s : Nat) : table_entry w poly 0 s = 0 := by
  simp [table_entry, bbb_update, bbb_iter_zero]

theorem table_entry_ref_zero_index (poly s : Nat) : table_entry_ref poly 0 s = 0 := by
  simp [table_entry_ref, bbb_update_ref, bbb_iter_ref_zero]

/-- A full-skip table entry is eight kernel steps on the byte placed in the
top register byte. -/
theorem table_entry_skip0 {w : Nat} (poly b : Nat) (hw : 8 ≤ w) (hb : b < 256) :
    table_entry w poly b 0 = bbb_iter w poly 8 (b <<< (w - 8)) := by
  unfold table_entry
  rw [Nat.shiftLeft_zero, Nat.mod_eq_of_lt hb]
  rw [bbb_update_eq poly 0 b hw hb, Nat.zero_xor]

theorem table_entry_ref_skip0 (poly b : Nat) (hb : b < 256) :
    table_entry_ref poly b 0 = bbb_iter_ref poly 8 b := by
  unfold table_entry_ref
  rw [Nat.mod_eq_of_lt hb, Nat.shiftRight_zero]
  rw [bbb_update_ref_eq poly 0 b hb, Nat.zero_xor]

/-- For a low nibble the first four unreflected steps are plain shifts, so
the generator may skip them. -/
theorem table_entry_skip4 {w : Nat} (poly i : Nat) (hw : 8 ≤ w) (hi : i < 16) :
    table_entry w poly i 4 = table_entry w poly i 0 := by
  have hi256 : i < 256 := by omega
  have hla : i <<< 4 < 256 := by
    have h := shiftLeft_lt_two_pow (show i < 2 ^ 4 from hi) 4
    simpa using h
  have hlb : (i <<< 4) <<< (w - 8) < 2 ^ w := byte_shiftLeft_lt hw hla
  rw [table_entry_skip0 poly i hw hi256]
  unfold table_entry bbb_update
  rw [Nat.mod_eq_of_lt hla, Nat.mod_eq_of_lt hla, Nat.mod_eq_of_lt hlb, Nat.zero_xor]
  have hsplit : (8 : Nat) = 4 + 4 := by norm_num
  rw [hsplit, bbb_iter_add]
  congr 1
  have hlow : i <<< (w - 8) < 2 ^ (w - 4) := by
    have h := shiftLeft_lt_two_pow (show i < 2 ^ 4 from hi) (w - 8)
    have h2 : 4 + (w - 8) ≤ w - 4 := by omega
    exact Nat.lt_of_lt_of_le h (Nat.pow_le_pow_right (by norm_num) h2)
  rw [bbb_iter_shift 4 _ (by omega) hlow]
  rw [← Nat.shiftLeft_add, ← Nat.shiftLeft_add]
  congr 1
  omega

/-- For a high nibble the first four reflected steps are plain shifts, so
the generator may skip them. -/
theorem table_entry_ref_skip4 (poly k : Nat) (hk : k < 256) (h4 : k % 16 = 0) :
    table_entry_ref poly k 4 = table_entry_ref poly k 0 := by
  rw [table_entry_ref_skip0 poly k hk]
  unfold table_entry_ref bbb_update_ref
  rw [Nat.mod_eq_of_lt hk]
  have hb : k >>> 4 < 256 := by
    have h : k >>> 4 ≤ k := by
      rw [Nat.shiftRight_eq_div_pow]
      exact Nat.div_le_self _ _
    omega
  rw [Nat.mod_eq_of_lt hb, Nat.zero_xor]
  have hsplit : (8 : Nat) = 4 + 4 := by norm_num
  rw [hsplit, bbb_iter_ref_add]
  congr 1
  have h16 : k % 2 ^ 4 = 0 := by simpa using h4
  rw [bbb_iter_ref_shift 4 k h16]

/-- The fast full-table generator produces the semantic table entry: entry
`b` is the register reached by absorbing the single byte `b` from zero. -/
theorem generate_table_eq {w : Nat} (poly b : Nat) (hw : 8 ≤ w) (hb : b < 256) :
    generate_table w poly b = bbb_iter w poly 8 (b <<< (w - 8)) := by
  unfold generate_table
  by_cases hsm : b < 0x10
  · rw [if_pos hsm, table_entry_skip4 poly b hw hsm, table_entry_skip0 poly b hw hb]
  · rw [if_neg hsm]
    have hhi : b &&& 0xf0 < 256 := by
      have h : b &&& 0xf0 ≤ b := Nat.and_le_left
      omega
    have hlo : b &&& 0x0f < 16 := Nat.and_lt_two_pow b (show (0x0f:Nat) < 2 ^ 4 by norm_num)
    rw [table_entry_skip0 poly _ hw hhi, table_entry_skip4 poly _ hw hlo,
      table_entry_skip0 poly _ hw (by omega)]
    rw [← bbb_iter_xor, ← shiftLeft_xor]
    congr 2
    rw [← Nat.and_xor_distrib_left]
    have hff : (0xf0 : Nat) ^^^ 0x0f = 0xff := by decide
    rw [hff]
    have h8 : (0xff : Nat) = 2 ^ 8 - 1 := by norm_num
    rw [h8, Nat.and_pow_two_sub_one_eq_mod, Nat.mod_eq_of_lt hb]

theorem generate_table_ref_eq (poly b : Nat) (hb : b < 256) :
    generate_table_ref poly b = bbb_iter_ref poly 8 b := by
  unfold generate_table_ref
  by_cases hsm : b < 0x10
  · rw [if_pos hsm, table_entry_ref_skip0 poly b hb]
  · rw [if_neg hsm]
    have hhi : b &&& 0xf0 < 256 := by
      have h : b &&& 0xf0 ≤ b := Nat.and_le_left
      omega
    have hmod : (b &&& 0xf0) % 16 = 0 := by
      have h1 : (b &&& 0xf0) &&& 15 = 0 := by
        rw [Nat.and_assoc]
        have h0 : (0xf0 : Nat) &&& 15 = 0 := by decide
        rw [h0, Nat.and_zero]
      have h2 : (15 : Nat) = 2 ^ 4 - 1 := by norm_num
      rw [h2, Nat.and_pow_two_sub_one_eq_mod] at h1
      simpa using h1
    have hlo : b &&& 0x0f < 256 := by
      have h : b &&& 0x0f ≤ b := Nat.and_le_left
      omega
    rw [table_entry_ref_skip4 poly _ hhi hmod, table_entry_ref_skip0 poly _ hhi,
      table_entry_ref_skip0 poly _ hlo]
    rw [← bbb_iter_ref_xor]
    congr 1
    rw [← Nat.and_xor_distrib_left]
    have hff : (0xf0 : Nat) ^^^ 0x0f = 0xff := by decide
    rw [hff]
    have h8 : (0xff : Nat) = 2 ^ 8 - 1 := by norm_num
    rw [h8, Nat.and_pow_two_sub_one_eq_mod, Nat.mod_eq_of_lt hb]

theorem mod_256_idem (b : Nat) : b % 256 % 256 = b % 256 :=
  Nat.mod_mod_of_dvd b (dvd_refl 256)

theorem two_pow_eq_256 : (2 : Nat) ^ 8 = 256 := by norm_num

theorem lt_256_of_mod (b : Nat) : b % 256 < 256 := Nat.mod_lt _ (by norm_num)

theorem shiftLeft_shiftRight_cancel (x n : Nat) : (x <<< n) >>> n = x := by
  rw [Nat.shiftLeft_eq, Nat.shiftRight_eq_div_pow]
  exact Nat.mul_div_cancel x (Nat.two_pow_pos n)

theorem shiftLeft_mod_same (x n : Nat) : (x <<< n) % 2 ^ n = 0 := by
  rw [Nat.shiftLeft_eq]
  exact Nat.mul_mod_left x (2 ^ n)

theorem and_ff_eq_mod (x : Nat) : x &&& 0xff = x % 2 ^ 8 := by
  have h : (0xff : Nat) = 2 ^ 8 - 1 := by norm_num
  rw [h, Nat.and_pow_two_sub_one_eq_mod]

theorem and_0f_eq_mod (x : Nat) : x &&& 0x0f = x % 2 ^ 4 := by
  have h : (0x0f : Nat) = 2 ^ 4 - 1 := by norm_num
  rw [h, Nat.and_pow_two_sub_one_eq_mod]

theorem and_f0_eq {b : Nat} (hb : b < 256) : b &&& 0xf0 = (b >>> 4) <<< 4 := by
  apply Nat.eq_of_testBit_eq
  intro i
  rw [Nat.testBit_and, Nat.testBit_shiftLeft, Nat.testBit_shiftRight]
  rcases Nat.lt_or_ge i 4 with h4 | h4
  · have hd : ¬ (i ≥ 4) := by omega
    have hf : (0xf0 : Nat).testBit i = false := by
      interval_cases i <;> decide
    simp [hd, hf]
  · rcases Nat.lt_or_ge i 8 with h8 | h8
    · have hf : (0xf0 : Nat).testBit i = true := by
        interval_cases i <;> decide
      have he : 4 + (i - 4) = i := by omega
      simp [h4, hf, he]
    · have hf : (0xf0 : Nat).testBit i = false := by
        apply Nat.testBit_lt_two_pow
        calc (0xf0 : Nat) < 2 ^ 8 := by norm_num
          _ ≤ 2 ^ i := Nat.pow_le_pow_right (by norm_num) h8
      have he : 4 + (i - 4) = i := by omega
      have hv : b.testBit i = false := by
        apply Nat.testBit_lt_two_pow
        calc b < 2 ^ 8 := by omega
          _ ≤ 2 ^ i := Nat.pow_le_pow_right (by norm_num) (by omega)
      simp [h4, hf, he, hv]

/-- The table-driven single-byte update with the generated unreflected
table computes exactly the eight bit-by-bit steps. -/
theorem table_based_update_byte_eq {w : Nat} (poly crc b : Nat) (hw : 8 ≤ w)
    (hcrc : crc < 2 ^ w) :
    table_based_update_byte w false (generate_table w poly) crc b =
      bbb_update w poly crc b 8 := by
  have hb' : b % 256 < 256 := lt_256_of_mod b
  unfold table_based_update_byte
  by_cases h8 : w = 8
  · subst h8
    have hcrc8 : crc < 256 := by rw [← two_pow_eq_256]; exact hcrc
    have hx : crc ^^^ b % 256 < 256 := by
      rw [← two_pow_eq_256] at hcrc8 hb' ⊢
      exact Nat.xor_lt_two_pow hcrc8 hb'
    rw [if_pos rfl, Nat.mod_eq_of_lt hx, generate_table_eq poly _ (by norm_num) hx]
    unfold bbb_update
    norm_num
  · rw [if_neg h8]
    simp only [Bool.false_eq_true, if_false]
    have hhi : crc >>> (w - 8) < 256 := by
      rw [← two_pow_eq_256]
      exact shiftRight_lt_of_lt hcrc hw
    have hx : (crc >>> (w - 8)) ^^^ b % 256 < 256 := by
      rw [← two_pow_eq_256] at hhi hb' ⊢
      exact Nat.xor_lt_two_pow hhi hb'
    rw [Nat.mod_eq_of_lt hx, generate_table_eq poly _ hw hx]
    rw [shiftLeft_xor, bbb_iter_xor]
    have hupd : bbb_update w poly crc b 8 =
        bbb_iter w poly 8 crc ^^^ bbb_iter w poly 8 ((b % 256) <<< (w - 8)) := by
      unfold bbb_update
      rw [Nat.mod_eq_of_lt (byte_shiftLeft_lt hw hb')]
      exact bbb_iter_xor w poly 8 crc _
    rw [hupd]
    have hsplit : bbb_iter w poly 8 crc =
        bbb_iter w poly 8 ((crc >>> (w - 8)) <<< (w - 8)) ^^^ (crc <<< 8) % 2 ^ w := by
      conv_lhs => rw [← hi_xor_lo crc (w - 8)]
      rw [bbb_iter_xor]
      congr 1
      have hlo : crc % 2 ^ (w - 8) < 2 ^ (w - 8) := Nat.mod_lt _ (Nat.two_pow_pos _)
      rw [bbb_iter_shift 8 _ hw hlo]
      have hww : (w - 8) + 8 = w := by omega
      have hm := shiftLeft_mod_two_pow crc 8 (w - 8)
      rw [hww] at hm
      exact hm.symm
    rw [hsplit]
    rw [Nat.xor_assoc, Nat.xor_assoc]
    congr 1
    rw [Nat.xor_comm]

/-- The table-driven single-byte update with the generated reflected table
computes exactly the eight bit-by-bit steps. -/
theorem table_based_update_byte_ref_eq {w : Nat} (poly crc b : Nat) (hw : 8 ≤ w)
    (hcrc : crc < 2 ^ w) :
    table_based_update_byte w true (generate_table_ref poly) crc b =
      bbb_update_ref poly crc b 8 := by
  have hb' : b % 256 < 256 := lt_256_of_mod b
  unfold table_based_update_byte
  by_cases h8 : w = 8
  · subst h8
    have hcrc8 : crc < 256 := by rw [← two_pow_eq_256]; exact hcrc
    have hx : crc ^^^ b % 256 < 256 := by
      rw [← two_pow_eq_256] at hcrc8 hb' ⊢
      exact Nat.xor_lt_two_pow hcrc8 hb'
    rw [if_pos rfl, Nat.mod_eq_of_lt hx, generate_table_ref_eq poly _ hx]
    rfl
  · rw [if_neg h8]
    simp only [if_true]
    have hlo : crc &&& 0xff < 256 := by
      rw [and_ff_eq_mod, two_pow_eq_256]
      exact Nat.mod_lt _ (by norm_num)
    have hx : (crc &&& 0xff) ^^^ b % 256 < 256 := by
      rw [← two_pow_eq_256] at hlo hb' ⊢
      exact Nat.xor_lt_two_pow hlo hb'
    rw [Nat.mod_eq_of_lt hx, generate_table_ref_eq poly _ hx]
    unfold bbb_update_ref
    have hdecomp : crc ^^^ b % 256 =
        ((crc >>> 8) <<< 8) ^^^ ((crc &&& 0xff) ^^^ b % 256) := by
      rw [← Nat.xor_assoc]
      congr 1
      rw [and_ff_eq_mod]
      exact (hi_xor_lo crc 8).symm
    conv_rhs =>
      rw [hdecomp, bbb_iter_ref_xor, bbb_iter_ref_shift 8 _ (shiftLeft_mod_same _ 8),
        shiftLeft_shiftRight_cancel]
    exact Nat.xor_comm _ _

/-- The small table reconstructs the full table entry by entry (for any
width, polynomial and register reflection). -/
theorem small_table_at_eq (w : Nat) (ref : Bool) (poly b : Nat) (hb : b < 256) :
    small_table_at w ref poly b = core_generate_table w ref poly b := by
  have h0f : b &&& 0x0f = b % 2 ^ 4 := and_0f_eq_mod b
  cases ref
  · unfold small_table_at core_generate_table generate_table
    simp only [Bool.false_eq_true, if_false]
    by_cases hsm : b < 0x10
    · have hb4 : b &&& 0x0f = b := by
        rw [h0f, Nat.mod_eq_of_lt (by omega)]
      have hsh : b >>> 4 = 0 := by
        rw [Nat.shiftRight_eq_div_pow]
        exact Nat.div_eq_of_lt (by omega)
      rw [if_pos hsm, hb4, hsh]
      unfold small_first_row small_first_column
      norm_num [table_entry_zero_index]
    · rw [if_neg hsm]
      unfold small_first_row small_first_column
      have hsh : (b >>> 4) <<< 4 < 256 := by
        have h1 : b >>> 4 < 16 := by
          rw [← two_pow_eq_256] at hb
          have := shiftRight_lt_of_lt hb (show 4 ≤ 8 by norm_num)
          have h2 : (8 : Nat) - 4 = 4 := by norm_num
          rw [h2] at this
          simpa using this
        have := shiftLeft_lt_two_pow (show b >>> 4 < 2 ^ 4 from by simpa using h1) 4
        simpa using this
      rw [Nat.mod_eq_of_lt hsh, ← and_f0_eq hb, Nat.xor_comm]
  · unfold small_table_at core_generate_table generate_table_ref
    simp only [if_true]
    by_cases hsm : b < 0x10
    · have hb4 : b &&& 0x0f = b := by
        rw [h0f, Nat.mod_eq_of_lt (by omega)]
      have hsh : b >>> 4 = 0 := by
        rw [Nat.shiftRight_eq_div_pow]
        exact Nat.div_eq_of_lt (by omega)
      rw [if_pos hsm, hb4, hsh]
      unfold small_first_row_ref small_first_column_ref
      norm_num [table_entry_ref_zero_index]
    · rw [if_neg hsm]
      unfold small_first_row_ref small_first_column_ref
      have hsh : (b >>> 4) <<< 4 < 256 := by
        have h1 : b >>> 4 < 16 := by
          rw [← two_pow_eq_256] at hb
          have := shiftRight_lt_of_lt hb (show 4 ≤ 8 by norm_num)
          have h2 : (8 : Nat) - 4 = 4 := by norm_num
          rw [h2] at this
          simpa using this
        have := shiftLeft_lt_two_pow (show b >>> 4 < 2 ^ 4 from by simpa using h1) 4
        simpa using this
      rw [Nat.mod_eq_of_lt hsh, ← and_f0_eq hb, Nat.xor_comm]

/-- Two tables that agree on byte indexes drive the update identically. -/
theorem table_based_update_byte_congr {w : Nat} {ref : Bool} {t1 t2 : Nat → Nat}
    (crc b : Nat) (h : ∀ i, i < 256 → t1 i = t2 i) :
    table_based_update_byte w ref t1 crc b = table_based_update_byte w ref t2 crc b := by
  unfold table_based_update_byte
  by_cases h8 : w = 8
  · simp only [if_pos h8]
    exact h _ (lt_256_of_mod _)
  · simp only [if_neg h8]
    cases ref
    · simp only [Bool.false_eq_true, if_false]
      rw [h _ (lt_256_of_mod _)]
    · simp only [if_true]
      rw [h _ (lt_256_of_mod _)]

theorem table_based_update_congr {w : Nat} {ref : Bool} {t1 t2 : Nat → Nat}
    (data : List Nat) (crc : Nat) (h : ∀ i, i < 256 → t1 i = t2 i) :
    table_based_update w ref t1 crc data = table_based_update w ref t2 crc data := by
  induction data generalizing crc with
  | nil => rfl
  | cons b data ih =>
    unfold table_based_update at ih ⊢
    simp only [List.foldl_cons]
    rw [table_based_update_byte_congr crc b h, ih]

theorem bbb_update_lt (w poly crc b : Nat) : bbb_update w poly crc b 8 < 2 ^ w := by
  unfold bbb_update
  exact bbb_iter_pos_lt (by norm_num)

theorem bbb_update_ref_lt {w poly crc : Nat} (b : Nat) (hp : poly < 2 ^ w)
    (hw : 8 ≤ w) (hcrc : crc < 2 ^ w) : bbb_update_ref poly crc b 8 < 2 ^ w := by
  unfold bbb_update_ref
  apply bbb_iter_ref_lt hp
  apply Nat.xor_lt_two_pow hcrc
  calc b % 256 < 256 := lt_256_of_mod b
    _ = 2 ^ 8 := two_pow_eq_256.symm
    _ ≤ 2 ^ w := Nat.pow_le_pow_right (by norm_num) hw

/-- Full-table update over a byte sequence agrees with the tableless
update (unreflected register). -/
theorem table_based_update_eq {w poly : Nat} (hw : 8 ≤ w) :
    ∀ (data : List Nat) (crc : Nat), crc < 2 ^ w →
    table_based_update w false (generate_table w poly) crc data =
      tableless_update w poly crc data := by
  intro data
  induction data with
  | nil => intro crc _; rfl
  | cons b data ih =>
    intro crc hcrc
    unfold table_based_update tableless_update
    simp only [List.foldl_cons]
    rw [table_based_update_byte_eq poly crc b hw hcrc]
    exact ih _ (bbb_update_lt w poly crc b)

/-- Full-table update over a byte sequence agrees with the tableless
update (reflected register). -/
theorem table_based_update_ref_eq {w poly : Nat} (hw : 8 ≤ w) (hp : poly < 2 ^ w) :
    ∀ (data : List Nat) (crc : Nat), crc < 2 ^ w →
    table_based_update w true (generate_table_ref poly) crc data =
      tableless_update_ref poly crc data := by
  intro data
  induction data with
  | nil => intro crc _; rfl
  | cons b data ih =>
    intro crc hcrc
    unfold table_based_update tableless_update_ref
    simp only [List.foldl_cons]
    rw [table_based_update_byte_ref_eq poly crc b hw hcrc]
    exact ih _ (bbb_update_ref_lt b hp hw hcrc)

theorem actual_poly_lt (c : cfg) (hpoly : c.POLY < 2 ^ c.WIDTH) :
    c.ACTUAL_POLY < 2 ^ c.WIDTH := by
  unfold cfg.ACTUAL_POLY conditional_reflect
  split
  · exact reverse_bits_lt _ _
  · exact hpoly

/-- Every strategy updater computes the tableless update. -/
theorem updater_update_eq_tableless (c : cfg) (s : strategy) (crc : Nat)
    (data : List Nat) (hw : 8 ≤ c.WIDTH) (hcrc : crc < 2 ^ c.WIDTH) :
    updater_update c s crc data = updater_update c .tableless crc data := by
  have htb : updater_update c .table_based crc data = updater_update c .tableless crc data := by
    unfold updater_update core_generate_table core_tableless_update
    cases href : c.REF_REG
    · simp only [Bool.false_eq_true, if_false]
      exact table_based_update_eq hw data crc hcrc
    · simp only [if_true]
      have hp : c.ACTUAL_POLY < 2 ^ c.WIDTH := by
        unfold cfg.ACTUAL_POLY conditional_reflect
        rw [href]
        exact reverse_bits_lt _ _
      exact table_based_update_ref_eq hw hp data crc hcrc
  have hsm : updater_update c .small_table_based crc data =
      updater_update c .table_based crc data := by
    unfold updater_update
    exact table_based_update_congr data crc
      (fun i hi => small_table_at_eq c.WIDTH c.REF_REG c.ACTUAL_POLY i hi)
  cases s
  · rfl
  · exact htb
  · rw [hsm]; exact htb
  · have h2 : updater_update c strategy.ext_table_based crc data =
        updater_update c strategy.table_based crc data := rfl
    rw [h2]; exact htb
  · have h2 : updater_update c strategy.ext_small_table_based crc data =
        updater_update c strategy.small_table_based crc data := rfl
    rw [h2, hsm]; exact htb

/-! ## Strategy-independent facade lemmas -/

theorem updater_update_nil (c : cfg) (s : strategy) (crc : Nat) :
    updater_update c s crc [] = crc := by
  cases s
  · unfold updater_update core_tableless_update
    split <;> rfl
  · rfl
  · rfl
  · rfl
  · rfl

theorem impl_update_nil (c : cfg) (s : strategy) (crc : Nat) :
    impl_update c s crc [] = crc := by
  unfold impl_update
  split <;> simp [updater_update_nil]

theorem core_tableless_update_append (w : Nat) (ref : Bool) (poly crc : Nat)
    (A B : List Nat) :
    core_tableless_update w ref poly crc (A ++ B) =
      core_tableless_update w ref poly (core_tableless_update w ref poly crc A) B := by
  unfold core_tableless_update tableless_update tableless_update_ref
  cases ref <;> simp [List.foldl_append]

theorem table_based_update_append (w : Nat) (ref : Bool) (tbl : Nat → Nat)
    (crc : Nat) (A B : List Nat) :
    table_based_update w ref tbl crc (A ++ B) =
      table_based_update w ref tbl (table_based_update w ref tbl crc A) B := by
  unfold table_based_update
  rw [List.foldl_append]

theorem updater_update_append (c : cfg) (s : strategy) (crc : Nat) (A B : List Nat) :
    updater_update c s crc (A ++ B) =
      updater_update c s (updater_update c s crc A) B := by
  cases s
  · exact core_tableless_update_append ..
  · exact table_based_update_append ..
  · exact table_based_update_append ..
  · exact table_based_update_append ..
  · exact table_based_update_append ..

theorem impl_update_append (c : cfg) (s : strategy) (crc : Nat) (A B : List Nat) :
    impl_update c s crc (A ++ B) = impl_update c s (impl_update c s crc A) B := by
  unfold impl_update
  by_cases h : (c.REF_IN != c.REF_REG) = true
  · simp only [h, if_true, List.map_append]
    exact updater_update_append ..
  · simp only [h, if_false]
    exact updater_update_append ..

/-! ## Claim theorems (first batch) -/

/-- C1: for the seven models of the spec's scenario table, the one-shot
`calculate` over the nine bytes of `"123456789"` returns the listed check
value, and the compile-time residue constant equals the listed residue. -/
theorem claim_C1_catalog_scenarios :
    calculate crc8_smbus check_input = 0xf4 ∧
    residue_const crc8_smbus = 0x00 ∧
    calculate crc8_sae_j1850 check_input = 0x4b ∧
    residue_const crc8_sae_j1850 = 0xc4 ∧
    calculate crc16_kermit check_input = 0x2189 ∧
    residue_const crc16_kermit = 0x0000 ∧
    calculate crc16_ibm_sdlc check_input = 0x906e ∧
    residue_const crc16_ibm_sdlc = 0xf0b8 ∧
    calculate crc32_iso_hdlc check_input = 0xcbf43926 ∧
    residue_const crc32_iso_hdlc = 0xdebb20e3 ∧
    calculate crc32_bzip2 check_input = 0xfc891918 ∧
    residue_const crc32_bzip2 = 0xc704dd7b ∧
    calculate crc64_xz check_input = 0x995dc9bbdf1939fa ∧
    residue_const crc64_xz = 0x49958c9abd7d353f := by
  set_option maxRecDepth 100000 in decide

/-- C5: the compile-time residue constant is computed exactly by the
derivation of §4.8 of the spec, for every model. -/
theorem claim_C5_residue_derivation (c : cfg) : residue_const c = residue_spec c := by
  unfold residue_const residue_spec core_bbb_update_wide bbb_update_wide bbb_update_wide_ref
  cases href : c.REF_REG <;> simp [href, Nat.xor_zero]

/-- C6: for every width, polynomial, register reflection and byte `b`, the
small table's `first_row[b & 0x0f] ^ first_column[b >> 4]` equals entry
`b` of the full 256-entry table generated for the same parameters. -/
theorem claim_C6_small_table (w : Nat) (ref : Bool) (poly b : Nat) (hb : b < 256) :
    small_table_at w ref poly b = core_generate_table w ref poly b :=
  small_table_at_eq w ref poly b hb

theorem claim_C6_small_table_witness :
    (0xa5 : Nat) < 256 ∧
    small_table_at 32 true 0xedb88320 0xa5 = core_generate_table 32 true 0xedb88320 0xa5 :=
  ⟨by norm_num, claim_C6_small_table 32 true 0xedb88320 0xa5 (by norm_num)⟩

/-- C7: for every model, strategy, starting register and split `A ++ B`,
updating with `A` then `B` leaves the register bit-exactly equal to one
`update` of the concatenation, and therefore `final()` agrees as well. -/
theorem claim_C7_streaming_associativity (c : cfg) (s : strategy) (crc : Nat)
    (A B : List Nat) :
    impl_update c s crc (A ++ B) = impl_update c s (impl_update c s crc A) B ∧
    impl_final c (impl_update c s crc (A ++ B)) =
      impl_final c (impl_update c s (impl_update c s crc A) B) := by
  refine ⟨impl_update_append c s crc A B, ?_⟩
  rw [impl_update_append c s crc A B]

/-- C8: `final()` is `residue() ^ XOR_OUT`, and `residue()` is the raw
register bit-reversed within the width exactly when `REF_OUT` differs from
`REF_REG`.  In this embedding both are pure functions of the register, so
they trivially leave it unchanged. -/
theorem claim_C8_final_residue (c : cfg) (crc : Nat) :
    impl_final c crc = impl_residue c crc ^^^ c.XOR_OUT ∧
    impl_residue c crc = conditional_reflect (c.REF_OUT != c.REF_REG) c.WIDTH crc := by
  constructor
  · rfl
  · have hbne : (c.REF_REG != c.REF_OUT) = (c.REF_OUT != c.REF_REG) := by
      cases c.REF_REG <;> cases c.REF_OUT <;> rfl
    unfold impl_residue
    rw [hbne]

/-- C10: an update over an empty byte range leaves the register unchanged
for every strategy, and consequently `calculate` of the empty sequence is
`ACTUAL_INIT` reflected iff `REF_REG ≠ REF_OUT`, XORed with `XOR_OUT`. -/
theorem claim_C10_empty_input (c : cfg) (s : strategy) (crc : Nat) :
    impl_update c s crc [] = crc ∧
    impl_calculate c s [] =
      conditional_reflect (c.REF_REG != c.REF_OUT) c.WIDTH c.ACTUAL_INIT ^^^ c.XOR_OUT := by
  refine ⟨impl_update_nil c s crc, ?_⟩
  unfold impl_calculate
  rw [impl_update_nil c s c.ACTUAL_INIT]
  rfl

/-- C2: for every model of a supported width and every input, all five
strategies (the external-table ones fed their default-constructed, i.e.
generator-filled, table) leave the same register after an update from a
fresh instance — hence equal `interim()` after any common prefix — and
return the same `final()`. -/
theorem claim_C2_strategy_equivalence (c : cfg) (s1 s2 : strategy) (data : List Nat)
    (hw : c.WIDTH = 8 ∨ c.WIDTH = 16 ∨ c.WIDTH = 32 ∨ c.WIDTH = 64)
    (hinit : c.INIT < 2 ^ c.WIDTH) :
    impl_update c s1 c.ACTUAL_INIT data = impl_update c s2 c.ACTUAL_INIT data ∧
    impl_final c (impl_update c s1 c.ACTUAL_INIT data) =
      impl_final c (impl_update c s2 c.ACTUAL_INIT data) := by
  have h8 : 8 ≤ c.WIDTH := by rcases hw with h | h | h | h <;> omega
  have hinit' : c.ACTUAL_INIT < 2 ^ c.WIDTH := by
    unfold cfg.ACTUAL_INIT conditional_reflect
    split
    · exact reverse_bits_lt _ _
    · exact hinit
  have key : ∀ s, impl_update c s c.ACTUAL_INIT data =
      impl_update c .tableless c.ACTUAL_INIT data := by
    intro s
    unfold impl_update
    split
    · exact updater_update_eq_tableless c s _ _ h8 hinit'
    · exact updater_update_eq_tableless c s _ _ h8 hinit'
  have heq : impl_update c s1 c.ACTUAL_INIT data = impl_update c s2 c.ACTUAL_INIT data :=
    (key s1).trans (key s2).symm
  exact ⟨heq, by rw [heq]⟩

theorem claim_C2_strategy_equivalence_witness :
    (crc32_iso_hdlc.WIDTH = 8 ∨ crc32_iso_hdlc.WIDTH = 16 ∨
      crc32_iso_hdlc.WIDTH = 32 ∨ crc32_iso_hdlc.WIDTH = 64) ∧
    crc32_iso_hdlc.INIT < 2 ^ crc32_iso_hdlc.WIDTH ∧
    (impl_update crc32_iso_hdlc .tableless crc32_iso_hdlc.ACTUAL_INIT [0x31, 0x32] =
      impl_update crc32_iso_hdlc .small_table_based crc32_iso_hdlc.ACTUAL_INIT [0x31, 0x32] ∧
    impl_final crc32_iso_hdlc
        (impl_update crc32_iso_hdlc .tableless crc32_iso_hdlc.ACTUAL_INIT [0x31, 0x32]) =
      impl_final crc32_iso_hdlc
        (impl_update crc32_iso_hdlc .small_table_based crc32_iso_hdlc.ACTUAL_INIT [0x31, 0x32])) :=
  ⟨by decide, by decide,
    claim_C2_strategy_equivalence crc32_iso_hdlc .tableless .small_table_based
      [0x31, 0x32] (by decide) (by decide)⟩

/-! ## Duality between the unreflected and the reflected kernel -/

theorem reverse_bits_zero (w : Nat) : reverse_bits w 0 = 0 := by
  induction w with
  | zero => rfl
  | succ w ih => simp [reverse_bits, ih]

theorem reverse_bits_shiftLeft_mod (w x : Nat) :
    reverse_bits w ((x <<< 1) % 2 ^ w) = reverse_bits w x >>> 1 := by
  apply Nat.eq_of_testBit_eq
  intro i
  rw [Nat.testBit_shiftRight, testBit_reverse_bits, testBit_reverse_bits,
    Nat.testBit_mod_two_pow, Nat.testBit_shiftLeft]
  by_cases h1 : 1 + i < w
  · have hi : i < w := by omega
    have ha : w - 1 - i < w := by omega
    have hbge : w - 1 - i ≥ 1 := by omega
    have hc : w - 1 - i - 1 = w - 1 - (1 + i) := by omega
    simp [hi, ha, hbge, hc, h1]
  · by_cases h2 : i < w
    · have ha : w - 1 - i = 0 := by omega
      have haw : w - 1 - i < w := by omega
      simp [h2, h1, ha, haw]
    · simp [h1, h2]

/-- One reflected step on the bit-reversed register, with the bit-reversed
polynomial, simulates one unreflected step. -/
theorem bbb_step_duality {w poly crc : Nat} (hp : poly < 2 ^ w) (hw : 0 < w) :
    bbb_step_ref (reverse_bits w poly) (reverse_bits w crc) =
      reverse_bits w (bbb_step w poly crc) := by
  rw [bbb_step_ref_eq, bbb_step_eq]
  have hbit : (reverse_bits w crc).testBit 0 = crc.testBit (w - 1) :=
    testBit_reverse_bits_of_lt hw
  rw [hbit, reverse_bits_xor, reverse_bits_shiftLeft_mod]
  congr 1
  by_cases h : crc.testBit (w - 1)
  · simp [h, Nat.mod_eq_of_lt hp]
  · simp [h, reverse_bits_zero]

theorem bbb_iter_duality {w poly : Nat} (hp : poly < 2 ^ w) (hw : 0 < w) :
    ∀ (n crc : Nat), crc < 2 ^ w →
    bbb_iter_ref (reverse_bits w poly) n (reverse_bits w crc) =
      reverse_bits w (bbb_iter w poly n crc) := by
  intro n
  induction n with
  | zero => intro crc _; rfl
  | succ n ih =>
    intro crc _
    simp only [bbb_iter_ref, bbb_iter]
    rw [bbb_step_duality hp hw]
    exact ih _ (bbb_step_lt w poly crc)

/-- A byte placed in the top register byte reverses (within the width) to
the byte reversed within eight bits. -/
theorem reverse_bits_byte_shift {w : Nat} (b : Nat) (hw : 8 ≤ w) :
    reverse_bits w (b <<< (w - 8)) = reverse_bits 8 b := by
  apply Nat.eq_of_testBit_eq
  intro i
  rw [testBit_reverse_bits, testBit_reverse_bits, Nat.testBit_shiftLeft]
  by_cases h : i < 8
  · have hi : i < w := by omega
    have h1 : w - 1 - i ≥ w - 8 := by omega
    have h2 : w - 1 - i - (w - 8) = 8 - 1 - i := by omega
    simp [hi, h, h1, h2]
  · by_cases hiw : i < w
    · have h1 : ¬ (w - 1 - i ≥ w - 8) := by omega
      simp [hiw, h, h1]
    · simp [hiw, h]

theorem bbb_update_duality {w poly crc b : Nat} (hp : poly < 2 ^ w) (hw : 8 ≤ w)
    (hcrc : crc < 2 ^ w) (hb : b < 256) :
    bbb_update_ref (reverse_bits w poly) (reverse_bits w crc) (reverse_bits 8 b) 8 =
      reverse_bits w (bbb_update w poly crc b 8) := by
  have hb8 : reverse_bits 8 b < 256 := by
    rw [← two_pow_eq_256]
    exact reverse_bits_lt 8 b
  rw [bbb_update_eq poly crc b hw hb, bbb_update_ref_eq _ _ _ hb8]
  rw [← bbb_iter_duality hp (by omega) 8 (crc ^^^ b <<< (w - 8))]
  · congr 1
    rw [reverse_bits_xor, reverse_bits_byte_shift b hw]
  · exact Nat.xor_lt_two_pow hcrc (byte_shiftLeft_lt hw hb)

theorem tableless_update_lt {w poly : Nat} :
    ∀ (data : List Nat) (crc : Nat), crc < 2 ^ w →
    tableless_update w poly crc data < 2 ^ w := by
  intro data
  induction data with
  | nil => intro crc h; exact h
  | cons b data ih =>
    intro crc _
    exact ih _ (bbb_update_lt w poly crc b)

theorem tableless_update_ref_lt {w poly : Nat} (hp : poly < 2 ^ w) (hw : 8 ≤ w) :
    ∀ (data : List Nat) (crc : Nat), crc < 2 ^ w →
    tableless_update_ref poly crc data < 2 ^ w := by
  intro data
  induction data with
  | nil => intro crc h; exact h
  | cons b data ih =>
    intro crc hcrc
    exact ih _ (bbb_update_ref_lt b hp hw hcrc)

/-- The reflected tableless run on the bit-reversed initial register and
per-byte bit-reversed input simulates the unreflected tableless run. -/
theorem tableless_update_duality {w poly : Nat} (hp : poly < 2 ^ w) (hw : 8 ≤ w) :
    ∀ (data : List Nat) (crc : Nat), crc < 2 ^ w → (∀ b ∈ data, b < 256) →
    tableless_update_ref (reverse_bits w poly) (reverse_bits w crc)
        (data.map (fun b => reverse_bits 8 b)) =
      reverse_bits w (tableless_update w poly crc data) := by
  intro data
  induction data with
  | nil => intro crc _ _; rfl
  | cons b data ih =>
    intro crc hcrc hdata
    have hb : b < 256 := hdata b (by simp)
    unfold tableless_update_ref tableless_update
    simp only [List.map_cons, List.foldl_cons]
    rw [bbb_update_duality hp hw hcrc hb]
    exact ih _ (bbb_update_lt w poly crc b) (fun x hx => hdata x (by simp [hx]))

theorem map_reverse_bits8_involutive (data : List Nat) (h : ∀ b ∈ data, b < 256) :
    (data.map (fun b => reverse_bits 8 b)).map (fun b => reverse_bits 8 b) = data := by
  induction data with
  | nil => rfl
  | cons b data ih =>
    have hb : b < 256 := h b (by simp)
    have hb' : b < 2 ^ 8 := by rw [two_pow_eq_256]; exact hb
    simp only [List.map_cons]
    rw [reverse_bits_reverse_bits hb', ih (fun x hx => h x (by simp [hx]))]

/-- Reduce the default `table_based` update to the tableless one. -/
theorem impl_update_eq_tableless (c : cfg) (s : strategy) (crc : Nat) (data : List Nat)
    (hw : 8 ≤ c.WIDTH) (hcrc : crc < 2 ^ c.WIDTH) :
    impl_update c s crc data = impl_update c .tableless crc data := by
  unfold impl_update
  split
  · exact updater_update_eq_tableless c s _ _ hw hcrc
  · exact updater_update_eq_tableless c s _ _ hw hcrc

/-- C3: `calculate` returns the same value whether the model is
instantiated with `REF_REG = REF_IN` or with `REF_REG = !REF_IN`; the two
instantiations only differ in the internal table layout and in the
per-byte input bit-reversal. -/
theorem claim_C3_ref_reg_invariance (w poly i x : Nat) (rin rout : Bool)
    (data : List Nat)
    (hw : w = 8 ∨ w = 16 ∨ w = 32 ∨ w = 64)
    (hpoly : poly < 2 ^ w) (hinit : i < 2 ^ w) (hdata : ∀ b ∈ data, b < 256) :
    calculate ⟨w, poly, i, x, rin, rout, rin⟩ data =
      calculate ⟨w, poly, i, x, rin, rout, !rin⟩ data := by
  have h8 : 8 ≤ w := by rcases hw with h | h | h | h <;> omega
  have hrevinit : reverse_bits w i < 2 ^ w := reverse_bits_lt w i
  cases rin
  · -- ref_in = false: variant A unreflected register, variant B reflected
    have hA : calculate ⟨w, poly, i, x, false, rout, false⟩ data =
        impl_final ⟨w, poly, i, x, false, rout, false⟩ (tableless_update w poly i data) := by
      unfold calculate impl_calculate
      rw [impl_update_eq_tableless _ _ _ _ h8 (by exact hinit)]
      rfl
    have hB : calculate ⟨w, poly, i, x, false, rout, !false⟩ data =
        impl_final ⟨w, poly, i, x, false, rout, true⟩
          (tableless_update_ref (reverse_bits w poly) (reverse_bits w i)
            (data.map (fun b => reverse_bits 8 b))) := by
      unfold calculate impl_calculate
      rw [impl_update_eq_tableless _ _ _ _ h8 (by exact hrevinit)]
      rfl
    rw [hA, hB, tableless_update_duality hpoly h8 data i hinit hdata]
    have hlt : tableless_update w poly i data < 2 ^ w := tableless_update_lt data i hinit
    unfold impl_final impl_residue conditional_reflect
    cases rout
    · simp [reverse_bits_reverse_bits hlt]
    · simp
  · -- ref_in = true: variant A reflected register, variant B unreflected
    have hA : calculate ⟨w, poly, i, x, true, rout, true⟩ data =
        impl_final ⟨w, poly, i, x, true, rout, true⟩
          (tableless_update_ref (reverse_bits w poly) (reverse_bits w i) data) := by
      unfold calculate impl_calculate
      rw [impl_update_eq_tableless _ _ _ _ h8 (by exact hrevinit)]
      rfl
    have hB : calculate ⟨w, poly, i, x, true, rout, !true⟩ data =
        impl_final ⟨w, poly, i, x, true, rout, false⟩
          (tableless_update w poly i (data.map (fun b => reverse_bits 8 b))) := by
      unfold calculate impl_calculate
      rw [impl_update_eq_tableless _ _ _ _ h8 (by exact hinit)]
      rfl
    have hdual : tableless_update_ref (reverse_bits w poly) (reverse_bits w i) data =
        reverse_bits w (tableless_update w poly i (data.map (fun b => reverse_bits 8 b))) := by
      have h2 := tableless_update_duality hpoly h8
        (data.map (fun b => reverse_bits 8 b)) i hinit
        (by
          intro b hb
          obtain ⟨a, _, ha2⟩ := List.mem_map.mp hb
          rw [← ha2, ← two_pow_eq_256]
          exact reverse_bits_lt 8 a)
      rw [map_reverse_bits8_involutive data hdata] at h2
      exact h2
    rw [hA, hB, hdual]
    have hlt : tableless_update w poly i (data.map (fun b => reverse_bits 8 b)) < 2 ^ w :=
      tableless_update_lt _ i hinit
    unfold impl_final impl_residue conditional_reflect
    cases rout
    · simp [reverse_bits_reverse_bits hlt]
    · simp

theorem claim_C3_ref_reg_invariance_witness :
    ((16 : Nat) = 8 ∨ (16 : Nat) = 16 ∨ (16 : Nat) = 32 ∨ (16 : Nat) = 64) ∧
    (0x1021 : Nat) < 2 ^ 16 ∧ (0xffff : Nat) < 2 ^ 16 ∧
    (∀ b ∈ [0x31, 0x32, 0x33], b < 256) ∧
    calculate ⟨16, 0x1021, 0xffff, 0xffff, true, true, true⟩ [0x31, 0x32, 0x33] =
      calculate ⟨16, 0x1021, 0xffff, 0xffff, true, true, !true⟩ [0x31, 0x32, 0x33] :=
  ⟨by decide, by decide, by decide, by decide,
    claim_C3_ref_reg_invariance 16 0x1021 0xffff 0xffff true true [0x31, 0x32, 0x33]
      (by decide) (by decide) (by decide) (by decide)⟩

/-! ## The mini library agrees with the full library -/

theorem mini_lookup_table_ref_eq (w rpoly i : Nat) (hi : i < 256) :
    mini_lookup_table w rpoly true i = generate_table_ref rpoly i := by
  unfold mini_lookup_table
  rw [generate_table_ref_eq rpoly i hi]
  simp

theorem mini_lookup_table_unref_eq {w poly : Nat} (hpoly : poly < 2 ^ w) (hw : 8 ≤ w)
    (i : Nat) (hi : i < 256) :
    mini_lookup_table w (reverse_bits w poly) false i = generate_table w poly i := by
  unfold mini_lookup_table
  simp only [Bool.false_eq_true, if_false]
  rw [← reverse_bits_byte_shift i hw]
  rw [bbb_iter_duality hpoly (by omega) 8 _ (byte_shiftLeft_lt hw hi)]
  rw [reverse_bits_reverse_bits (bbb_iter_pos_lt (by norm_num))]
  exact (generate_table_eq poly i hw hi).symm

/-- The mini per-byte update is the full library's table-driven per-byte
update (the full library only special-cases `w = 8` to avoid shifts that
the mini library writes as two four-bit shifts). -/
theorem mini_update_byte_eq {w : Nat} (ref : Bool) (tbl : Nat → Nat) (crc b : Nat)
    (hw : 8 ≤ w) (hcrc : crc < 2 ^ w) :
    mini_update_byte w ref tbl crc b = table_based_update_byte w ref tbl crc b := by
  unfold mini_update_byte table_based_update_byte
  cases ref
  · simp only [Bool.false_eq_true, if_false]
    have hsh : (crc <<< 4) <<< 4 = crc <<< 8 := by
      rw [← Nat.shiftLeft_add]
    by_cases h8 : w = 8
    · subst h8
      have hcrc8 : crc < 256 := by rw [← two_pow_eq_256]; exact hcrc
      have hz : (crc <<< 8) % 2 ^ 8 = 0 := shiftLeft_mod_same crc 8
      simp only [if_pos rfl, hsh, hz, Nat.xor_zero]
      norm_num
    · rw [if_neg h8, hsh]
  · simp only [if_true]
    have hsh : (crc >>> 4) >>> 4 = crc >>> 8 := by
      rw [← Nat.shiftRight_add]
    by_cases h8 : w = 8
    · subst h8
      have hcrc8 : crc < 256 := by rw [← two_pow_eq_256]; exact hcrc
      have hz : crc >>> 8 = 0 := by
        rw [Nat.shiftRight_eq_div_pow, two_pow_eq_256]
        exact Nat.div_eq_of_lt hcrc8
      rw [if_pos rfl, hsh, hz, Nat.xor_zero, Nat.mod_eq_of_lt hcrc8]
    · rw [if_neg h8, hsh, and_ff_eq_mod, two_pow_eq_256]

/-- The mini byte loop with the mini table computes the tableless update
of the full library (unreflected register). -/
theorem mini_fold_unref_eq {w poly : Nat} (hpoly : poly < 2 ^ w) (hw : 8 ≤ w) :
    ∀ (data : List Nat) (crc : Nat), crc < 2 ^ w →
    data.foldl (mini_update_byte w false (mini_lookup_table w (reverse_bits w poly) false)) crc =
      tableless_update w poly crc data := by
  intro data
  induction data with
  | nil => intro crc _; rfl
  | cons b data ih =>
    intro crc hcrc
    simp only [List.foldl_cons]
    unfold tableless_update
    simp only [List.foldl_cons]
    rw [mini_update_byte_eq false _ crc b hw hcrc,
      table_based_update_byte_congr crc b
        (fun i hi => mini_lookup_table_unref_eq hpoly hw i hi),
      table_based_update_byte_eq poly crc b hw hcrc]
    exact ih _ (bbb_update_lt w poly crc b)

/-- The mini byte loop with the mini table computes the tableless update
of the full library (reflected register). -/
theorem mini_fold_ref_eq {w poly : Nat} (hw : 8 ≤ w) :
    ∀ (data : List Nat) (crc : Nat), crc < 2 ^ w →
    data.foldl (mini_update_byte w true (mini_lookup_table w (reverse_bits w poly) true)) crc =
      tableless_update_ref (reverse_bits w poly) crc data := by
  intro data
  induction data with
  | nil => intro crc _; rfl
  | cons b data ih =>
    intro crc hcrc
    simp only [List.foldl_cons]
    unfold tableless_update_ref
    simp only [List.foldl_cons]
    have hrp : reverse_bits w poly < 2 ^ w := reverse_bits_lt w poly
    rw [mini_update_byte_eq true _ crc b hw hcrc,
      table_based_update_byte_congr crc b
        (fun i hi => mini_lookup_table_ref_eq w (reverse_bits w poly) i hi),
      table_based_update_byte_ref_eq (reverse_bits w poly) crc b hw hcrc]
    exact ih _ (bbb_update_ref_lt b hrp hw hcrc)

/-- C9: on every shared parameter tuple the mini library computes exactly
what the full library's default `table_based` engine computes with
`REF_REG = REF_IN`: the static lookup table, `update`/`interim`,
`residue`, `final` and one-shot `calculate` all agree. -/
theorem claim_C9_mini_equivalence (w poly i x : Nat) (rin rout : Bool)
    (data : List Nat) (crc : Nat)
    (hw : w = 8 ∨ w = 16 ∨ w = 32 ∨ w = 64)
    (hpoly : poly < 2 ^ w) (hinit : i < 2 ^ w) (hcrc : crc < 2 ^ w) :
    (∀ j, j < 256 → mini_lookup_table w (reverse_bits w poly) rin j =
        core_generate_table w rin (cfg.ACTUAL_POLY ⟨w, poly, i, x, rin, rout, rin⟩) j) ∧
    mini_update w poly rin crc data =
      impl_update ⟨w, poly, i, x, rin, rout, rin⟩ .table_based crc data ∧
    mini_residue w rin rout crc = impl_residue ⟨w, poly, i, x, rin, rout, rin⟩ crc ∧
    mini_final w x rin rout crc = impl_final ⟨w, poly, i, x, rin, rout, rin⟩ crc ∧
    mini_calculate w poly i x rin rout data =
      calculate ⟨w, poly, i, x, rin, rout, rin⟩ data := by
  have h8 : 8 ≤ w := by rcases hw with h | h | h | h <;> omega
  have htbl : ∀ j, j < 256 → mini_lookup_table w (reverse_bits w poly) rin j =
      core_generate_table w rin (cfg.ACTUAL_POLY ⟨w, poly, i, x, rin, rout, rin⟩) j := by
    intro j hj
    cases rin
    · show mini_lookup_table w (reverse_bits w poly) false j = generate_table w poly j
      exact mini_lookup_table_unref_eq hpoly h8 j hj
    · show mini_lookup_table w (reverse_bits w poly) true j =
        generate_table_ref (reverse_bits w poly) j
      exact mini_lookup_table_ref_eq w (reverse_bits w poly) j hj
  have hup : ∀ (r : Nat), r < 2 ^ w →
      List.foldl (mini_update_byte w rin (mini_lookup_table w (reverse_bits w poly) rin))
          r data =
        impl_update ⟨w, poly, i, x, rin, rout, rin⟩ .table_based r data := by
    intro r hr
    rw [impl_update_eq_tableless _ _ _ _ h8 hr]
    cases rin
    · show List.foldl
          (mini_update_byte w false (mini_lookup_table w (reverse_bits w poly) false)) r data =
        tableless_update w poly r data
      exact mini_fold_unref_eq hpoly h8 data r hr
    · show List.foldl
          (mini_update_byte w true (mini_lookup_table w (reverse_bits w poly) true)) r data =
        tableless_update_ref (reverse_bits w poly) r data
      exact mini_fold_ref_eq h8 data r hr
  have hres : mini_residue w rin rout crc =
      impl_residue ⟨w, poly, i, x, rin, rout, rin⟩ crc := by
    cases rin <;> cases rout <;> rfl
  have hfin : mini_final w x rin rout crc =
      impl_final ⟨w, poly, i, x, rin, rout, rin⟩ crc := by
    unfold mini_final impl_final
    rw [hres]
  refine ⟨htbl, hup crc hcrc, hres, hfin, ?_⟩
  have hdef : mini_default_interim w i rin =
      cfg.ACTUAL_INIT ⟨w, poly, i, x, rin, rout, rin⟩ := by
    cases rin <;> rfl
  have hinit' : mini_default_interim w i rin < 2 ^ w := by
    cases rin
    · exact hinit
    · exact reverse_bits_lt w i
  have hrun := hup (mini_default_interim w i rin) hinit'
  rw [hdef] at hrun
  unfold mini_calculate mini_calculate_from calculate impl_calculate
  simp only
  rw [hdef, hrun]
  cases rin <;> cases rout <;>
    simp [impl_final, impl_residue, conditional_reflect]

theorem claim_C9_mini_equivalence_witness :
    ((16 : Nat) = 8 ∨ (16 : Nat) = 16 ∨ (16 : Nat) = 32 ∨ (16 : Nat) = 64) ∧
    (0x1021 : Nat) < 2 ^ 16 ∧ (0xffff : Nat) < 2 ^ 16 ∧ (0x1234 : Nat) < 2 ^ 16 ∧
    ((∀ j, j < 256 → mini_lookup_table 16 (reverse_bits 16 0x1021) true j =
        core_generate_table 16 true
          (cfg.ACTUAL_POLY ⟨16, 0x1021, 0xffff, 0xffff, true, true, true⟩) j) ∧
     mini_update 16 0x1021 true 0x1234 [0x31] =
       impl_update ⟨16, 0x1021, 0xffff, 0xffff, true, true, true⟩ .table_based 0x1234 [0x31] ∧
     mini_residue 16 true true 0x1234 =
       impl_residue ⟨16, 0x1021, 0xffff, 0xffff, true, true, true⟩ 0x1234 ∧
     mini_final 16 0xffff true true 0x1234 =
       impl_final ⟨16, 0x1021, 0xffff, 0xffff, true, true, true⟩ 0x1234 ∧
     mini_calculate 16 0x1021 0xffff 0xffff true true [0x31] =
       calculate ⟨16, 0x1021, 0xffff, 0xffff, true, true, true⟩ [0x31]) :=
  ⟨by decide, by decide, by decide, by decide,
    claim_C9_mini_equivalence 16 0x1021 0xffff 0xffff true true [0x31] 0x1234
      (by decide) (by decide) (by decide) (by decide)⟩

theorem le_bytes_lt : ∀ (m v : Nat), ∀ b ∈ le_bytes m v, b < 256 := by
  intro m
  induction m with
  | zero => intro v b hb; simp [le_bytes] at hb
  | succ m ih =>
    intro v b hb
    simp only [le_bytes, List.mem_cons] at hb
    rcases hb with hb | hb
    · subst hb
      have h := Nat.and_lt_two_pow v (show (0xff : Nat) < 2 ^ 8 by norm_num)
      rw [two_pow_eq_256] at h
      exact h
    · exact ih (v >>> 8) b hb

theorem xor_cancel_left (a b : Nat) : a ^^^ (a ^^^ b) = b := by
  rw [← Nat.xor_assoc, Nat.xor_self, Nat.zero_xor]

/-- The low `8 * m + 8` bits of a value split into the low byte and the
next `m` bytes shifted up by one byte. -/
theorem mod_split_low8 (v m : Nat) :
    v % 2 ^ (8 * m + 8) = (v &&& 0xff) ^^^ (((v >>> 8) % 2 ^ (8 * m)) <<< 8) := by
  apply Nat.eq_of_testBit_eq
  intro i
  rw [Nat.testBit_mod_two_pow, Nat.testBit_xor, and_ff_eq_mod, Nat.testBit_mod_two_pow,
    Nat.testBit_shiftLeft]
  by_cases h8 : i < 8
  · have hnot : ¬ (i ≥ 8) := by omega
    have hin : i < 8 * m + 8 := by omega
    simp [h8, hnot, hin]
  · have hge : i ≥ 8 := by omega
    have hmod : ((v >>> 8) % 2 ^ (8 * m)).testBit (i - 8) =
        (decide (i - 8 < 8 * m) && v.testBit i) := by
      rw [Nat.testBit_mod_two_pow, Nat.testBit_shiftRight]
      have he : 8 + (i - 8) = i := by omega
      rw [he]
    rw [hmod]
    have hiff : (i - 8 < 8 * m) ↔ (i < 8 * m + 8) := by omega
    by_cases hin : i < 8 * m + 8
    · simp [h8, hge, hin, hiff.mpr hin]
    · have hnot2 : ¬ (i - 8 < 8 * m) := by omega
      simp [h8, hge, hin, hnot2]

theorem tableless_update_ref_cons (poly r b : Nat) (data : List Nat) :
    tableless_update_ref poly r (b :: data) =
      tableless_update_ref poly (bbb_update_ref poly r b 8) data := rfl

/-- Feeding the little-endian bytes of a word into the reflected kernel is
one wide update with that word. -/
theorem tableless_ref_le_bytes (poly : Nat) : ∀ (m r v : Nat),
    tableless_update_ref poly r (le_bytes m v) =
      bbb_iter_ref poly (8 * m) (r ^^^ v % 2 ^ (8 * m)) := by
  intro m
  induction m with
  | zero =>
    intro r v
    simp [le_bytes, tableless_update_ref, bbb_iter_ref, Nat.mod_one]
  | succ m ih =>
    intro r v
    have hcons : le_bytes (m + 1) v = (v &&& 0xff) :: le_bytes m (v >>> 8) := rfl
    have hff : v &&& 0xff < 256 := by
      have h := Nat.and_lt_two_pow v (show (0xff : Nat) < 2 ^ 8 by norm_num)
      rw [two_pow_eq_256] at h
      exact h
    have hm : 8 * (m + 1) = 8 * m + 8 := by ring
    rw [hcons, tableless_update_ref_cons, ih, hm]
    conv_rhs => rw [mod_split_low8 v m]
    have hsplit : 8 * m + 8 = 8 + 8 * m := by ring
    rw [hsplit, bbb_iter_ref_add]
    congr 1
    rw [bbb_update_ref_eq poly r _ hff]
    conv_rhs => rw [← Nat.xor_assoc, bbb_iter_ref_xor,
      bbb_iter_ref_shift 8 _ (shiftLeft_mod_same _ 8), shiftLeft_shiftRight_cancel]

theorem tableless_update_snoc (w poly r b : Nat) (data : List Nat) :
    tableless_update w poly r (data ++ [b]) =
      bbb_update w poly (tableless_update w poly r data) b 8 := by
  unfold tableless_update
  rw [List.foldl_append]
  rfl

/-- Feeding the big-endian bytes of a word into the unreflected kernel is
one wide update with that word shifted to the top of the register. -/
theorem tableless_be_bytes {w poly : Nat} (hw : 8 ≤ w) : ∀ (m r v : Nat), 8 * m ≤ w →
    tableless_update w poly r ((le_bytes m v).reverse) =
      bbb_iter w poly (8 * m) (r ^^^ (v % 2 ^ (8 * m)) <<< (w - 8 * m)) := by
  intro m
  induction m with
  | zero =>
    intro r v _
    simp [le_bytes, tableless_update, bbb_iter, Nat.mod_one]
  | succ m ih =>
    intro r v hmw
    have hcons : le_bytes (m + 1) v = (v &&& 0xff) :: le_bytes m (v >>> 8) := rfl
    have hrev : (le_bytes (m + 1) v).reverse =
        (le_bytes m (v >>> 8)).reverse ++ [v &&& 0xff] := by
      rw [hcons, List.reverse_cons]
    have hff : v &&& 0xff < 256 := by
      have h := Nat.and_lt_two_pow v (show (0xff : Nat) < 2 ^ 8 by norm_num)
      rw [two_pow_eq_256] at h
      exact h
    have hm : 8 * (m + 1) = 8 * m + 8 := by ring
    rw [hrev, tableless_update_snoc, ih r (v >>> 8) (by omega),
      bbb_update_eq poly _ _ hw hff, hm, bbb_iter_add w poly (8 * m) 8]
    congr 1
    have he : 8 + (w - (8 * m + 8)) = w - 8 * m := by omega
    have harr : r ^^^ ((v &&& 0xff) <<< (w - (8 * m + 8)) ^^^
        ((v >>> 8) % 2 ^ (8 * m)) <<< (w - 8 * m)) =
        (r ^^^ ((v >>> 8) % 2 ^ (8 * m)) <<< (w - 8 * m)) ^^^
          (v &&& 0xff) <<< (w - (8 * m + 8)) := by
      rw [Nat.xor_assoc]
      congr 1
      rw [Nat.xor_comm]
    have hlt : (v &&& 0xff) <<< (w - (8 * m + 8)) < 2 ^ (w - 8 * m) := by
      have h := shiftLeft_lt_two_pow (show v &&& 0xff < 2 ^ 8 from by
        rw [two_pow_eq_256]; exact hff) (w - (8 * m + 8))
      exact Nat.lt_of_lt_of_le h (Nat.pow_le_pow_right (by norm_num) (by omega))
    conv_rhs => rw [mod_split_low8 v m, shiftLeft_xor, ← Nat.shiftLeft_add, he, harr,
      bbb_iter_xor]
    congr 1
    conv_rhs => rw [bbb_iter_shift (8 * m) _ (by omega) hlt, ← Nat.shiftLeft_add]
    congr 1
    omega

theorem tableless_update_app (w poly r : Nat) (A B : List Nat) :
    tableless_update w poly r (A ++ B) =
      tableless_update w poly (tableless_update w poly r A) B := by
  unfold tableless_update
  rw [List.foldl_append]

theorem tableless_update_ref_app (poly r : Nat) (A B : List Nat) :
    tableless_update_ref poly r (A ++ B) =
      tableless_update_ref poly (tableless_update_ref poly r A) B := by
  unfold tableless_update_ref
  rw [List.foldl_append]

theorem impl_calculate_eq_tableless (c : cfg) (s : strategy) (data : List Nat)
    (hw : 8 ≤ c.WIDTH) (hai : c.ACTUAL_INIT < 2 ^ c.WIDTH) :
    impl_calculate c s data = impl_calculate c .tableless data := by
  unfold impl_calculate
  rw [impl_update_eq_tableless _ _ _ _ hw hai]

/-- Core of the residue law, unreflected register: after a valid codeword
(dataword, then the big-endian bytes of its `final()`), the register holds
`width` kernel steps on `XOR_OUT`. -/
theorem residue_law_core_unref (w p i x : Nat) (m : List Nat) (h8 : 8 ≤ w)
    (h88 : 8 * (w / 8) = w) (hi : i < 2 ^ w) (hx : x < 2 ^ w) :
    tableless_update w p i
        (m ++ (le_bytes (w / 8) (tableless_update w p i m ^^^ x)).reverse) =
      bbb_iter w p w x := by
  have hr : tableless_update w p i m < 2 ^ w := tableless_update_lt m i hi
  have hD : tableless_update w p i m ^^^ x < 2 ^ w := Nat.xor_lt_two_pow hr hx
  rw [tableless_update_app,
    tableless_be_bytes h8 (w / 8) _ _ (by omega), h88, Nat.mod_eq_of_lt hD,
    Nat.sub_self, Nat.shiftLeft_zero, xor_cancel_left]

/-- Core of the residue law, reflected register: after a valid codeword
(dataword, then the little-endian bytes of its `final()`), the register
holds `width` reflected kernel steps on `XOR_OUT`. -/
theorem residue_law_core_ref (w poly i0 x : Nat) (m : List Nat) (h8 : 8 ≤ w)
    (h88 : 8 * (w / 8) = w) (hpoly : poly < 2 ^ w) (hi0 : i0 < 2 ^ w) (hx : x < 2 ^ w) :
    tableless_update_ref poly i0
        (m ++ le_bytes (w / 8) (tableless_update_ref poly i0 m ^^^ x)) =
      bbb_iter_ref poly w x := by
  have hr : tableless_update_ref poly i0 m < 2 ^ w := tableless_update_ref_lt hpoly h8 m i0 hi0
  have hD : tableless_update_ref poly i0 m ^^^ x < 2 ^ w := Nat.xor_lt_two_pow hr hx
  rw [tableless_update_ref_app, tableless_ref_le_bytes poly (w / 8), h88,
    Nat.mod_eq_of_lt hD, xor_cancel_left]

/-- C4 as stated is false: on the crossed model (`REF_IN = false`,
`REF_OUT = true`) with the empty dataword, the codeword built per the
claim's appending rule leaves residue-of-register `0x7b`, while the
compile-time residue constant is `0xde`. -/
theorem claim_C4_residue_law_counterexample :
    ¬ (impl_residue crossed_model
        (impl_update crossed_model .table_based crossed_model.ACTUAL_INIT
          (([] : List Nat) ++ crc_append_bytes crossed_model
            (impl_calculate crossed_model .table_based []))) =
      residue_const crossed_model) := by
  decide

/-- C4 amended: for every model with `REF_IN = REF_OUT` (which includes
every catalog model; `REF_REG` stays arbitrary), every strategy and every
dataword `M`, appending `final(M)` in transmission order and updating a
fresh instance with the codeword leaves `residue_of_register` equal to the
compile-time residue constant. -/
theorem claim_C4_residue_law (c : cfg) (s : strategy) (m : List Nat)
    (hw : c.WIDTH = 8 ∨ c.WIDTH = 16 ∨ c.WIDTH = 32 ∨ c.WIDTH = 64)
    (hio : c.REF_IN = c.REF_OUT)
    (hpoly : c.POLY < 2 ^ c.WIDTH) (hinit : c.INIT < 2 ^ c.WIDTH)
    (hxor : c.XOR_OUT < 2 ^ c.WIDTH) (hm : ∀ b ∈ m, b < 256) :
    impl_residue c (impl_update c s c.ACTUAL_INIT
        (m ++ crc_append_bytes c (impl_calculate c s m))) = residue_const c := by
  obtain ⟨w, p, i, x, rin, rout, rr⟩ := c
  have hio' : rin = rout := hio
  subst hio'
  have hw' : w = 8 ∨ w = 16 ∨ w = 32 ∨ w = 64 := hw
  have h8 : 8 ≤ w := by rcases hw' with h | h | h | h <;> omega
  have h88 : 8 * (w / 8) = w := by rcases hw' with h | h | h | h <;> subst h <;> norm_num
  have hposw : 0 < w := by omega
  have hp' : p < 2 ^ w := hpoly
  have hi' : i < 2 ^ w := hinit
  have hx' : x < 2 ^ w := hxor
  have hai : cfg.ACTUAL_INIT ⟨w, p, i, x, rin, rin, rr⟩ < 2 ^ w := by
    unfold cfg.ACTUAL_INIT conditional_reflect
    split
    · exact reverse_bits_lt _ _
    · exact hi'
  rw [impl_calculate_eq_tableless _ s m h8 hai, impl_update_eq_tableless _ s _ _ h8 hai]
  cases rin <;> cases rr
  · -- REF_IN = REF_OUT = false, REF_REG = false
    have eD : impl_calculate ⟨w, p, i, x, false, false, false⟩ .tableless m =
        tableless_update w p i m ^^^ x := rfl
    have eapp : crc_append_bytes ⟨w, p, i, x, false, false, false⟩
          (impl_calculate ⟨w, p, i, x, false, false, false⟩ .tableless m) =
        (le_bytes (w / 8) (tableless_update w p i m ^^^ x)).reverse := by
      rw [eD]
      rfl
    rw [eapp]
    have etot : impl_update ⟨w, p, i, x, false, false, false⟩ .tableless
          (cfg.ACTUAL_INIT ⟨w, p, i, x, false, false, false⟩)
          (m ++ (le_bytes (w / 8) (tableless_update w p i m ^^^ x)).reverse) =
        bbb_iter w p w x := residue_law_core_unref w p i x m h8 h88 hi' hx'
    rw [etot]
    show bbb_iter w p w x = bbb_iter w p w (x ^^^ 0)
    rw [Nat.xor_zero]
  · -- REF_IN = REF_OUT = false, REF_REG = true
    have hrA : tableless_update w p i m < 2 ^ w := tableless_update_lt m i hi'
    have erA : tableless_update_ref (reverse_bits w p) (reverse_bits w i)
          (m.map (fun b => reverse_bits 8 b)) =
        reverse_bits w (tableless_update w p i m) :=
      tableless_update_duality hp' h8 m i hi' hm
    have eD : impl_calculate ⟨w, p, i, x, false, false, true⟩ .tableless m =
        tableless_update w p i m ^^^ x := by
      show reverse_bits w (tableless_update_ref (reverse_bits w p) (reverse_bits w i)
          (m.map (fun b => reverse_bits 8 b))) ^^^ x = tableless_update w p i m ^^^ x
      rw [erA, reverse_bits_reverse_bits hrA]
    have eapp : crc_append_bytes ⟨w, p, i, x, false, false, true⟩
          (impl_calculate ⟨w, p, i, x, false, false, true⟩ .tableless m) =
        (le_bytes (w / 8) (tableless_update w p i m ^^^ x)).reverse := by
      rw [eD]
      rfl
    rw [eapp]
    have hbytes : ∀ b ∈ m ++ (le_bytes (w / 8) (tableless_update w p i m ^^^ x)).reverse,
        b < 256 := by
      intro b hb
      rcases List.mem_append.mp hb with h | h
      · exact hm b h
      · exact le_bytes_lt _ _ b (List.mem_reverse.mp h)
    have hd := tableless_update_duality hp' h8
      (m ++ (le_bytes (w / 8) (tableless_update w p i m ^^^ x)).reverse) i hi' hbytes
    have hiter : bbb_iter w p w x < 2 ^ w := bbb_iter_pos_lt hposw
    show reverse_bits w (tableless_update_ref (reverse_bits w p) (reverse_bits w i)
        ((m ++ (le_bytes (w / 8) (tableless_update w p i m ^^^ x)).reverse).map
          (fun b => reverse_bits 8 b))) =
      reverse_bits w (bbb_iter_ref (reverse_bits w p) w (reverse_bits w x ^^^ 0))
    rw [hd, residue_law_core_unref w p i x m h8 h88 hi' hx', Nat.xor_zero,
      bbb_iter_duality hp' hposw w x hx']
  · -- REF_IN = REF_OUT = true, REF_REG = false
    have hbm : ∀ b ∈ m.map (fun b => reverse_bits 8 b), b < 256 := by
      intro b hb
      obtain ⟨a, _, ha⟩ := List.mem_map.mp hb
      rw [← ha, ← two_pow_eq_256]
      exact reverse_bits_lt 8 a
    have hd1 := tableless_update_duality hp' h8 (m.map (fun b => reverse_bits 8 b)) i hi' hbm
    rw [map_reverse_bits8_involutive m hm] at hd1
    have eD : impl_calculate ⟨w, p, i, x, true, true, false⟩ .tableless m =
        tableless_update_ref (reverse_bits w p) (reverse_bits w i) m ^^^ x := by
      show reverse_bits w (tableless_update w p i (m.map (fun b => reverse_bits 8 b))) ^^^ x =
        tableless_update_ref (reverse_bits w p) (reverse_bits w i) m ^^^ x
      rw [hd1]
    have eapp : crc_append_bytes ⟨w, p, i, x, true, true, false⟩
          (impl_calculate ⟨w, p, i, x, true, true, false⟩ .tableless m) =
        le_bytes (w / 8)
          (tableless_update_ref (reverse_bits w p) (reverse_bits w i) m ^^^ x) := by
      rw [eD]
      rfl
    rw [eapp]
    have hbytes : ∀ b ∈ m ++ le_bytes (w / 8)
          (tableless_update_ref (reverse_bits w p) (reverse_bits w i) m ^^^ x),
        b < 256 := by
      intro b hb
      rcases List.mem_append.mp hb with h | h
      · exact hm b h
      · exact le_bytes_lt _ _ b h
    have hmap2 : ∀ b ∈ (m ++ le_bytes (w / 8)
          (tableless_update_ref (reverse_bits w p) (reverse_bits w i) m ^^^ x)).map
            (fun b => reverse_bits 8 b), b < 256 := by
      intro b hb
      obtain ⟨a, _, ha⟩ := List.mem_map.mp hb
      rw [← ha, ← two_pow_eq_256]
      exact reverse_bits_lt 8 a
    have hd2 := tableless_update_duality hp' h8
      ((m ++ le_bytes (w / 8)
        (tableless_update_ref (reverse_bits w p) (reverse_bits w i) m ^^^ x)).map
          (fun b => reverse_bits 8 b)) i hi' hmap2
    rw [map_reverse_bits8_involutive _ hbytes] at hd2
    show reverse_bits w (tableless_update w p i
        ((m ++ le_bytes (w / 8)
          (tableless_update_ref (reverse_bits w p) (reverse_bits w i) m ^^^ x)).map
            (fun b => reverse_bits 8 b))) =
      reverse_bits w (bbb_iter w p w (reverse_bits w x ^^^ 0))
    rw [← hd2,
      residue_law_core_ref w (reverse_bits w p) (reverse_bits w i) x m h8 h88
        (reverse_bits_lt w p) (reverse_bits_lt w i) hx',
      Nat.xor_zero]
    have hdual := bbb_iter_duality hp' hposw w (reverse_bits w x) (reverse_bits_lt w x)
    rw [reverse_bits_reverse_bits hx'] at hdual
    rw [← hdual]
  · -- REF_IN = REF_OUT = true, REF_REG = true
    have eD : impl_calculate ⟨w, p, i, x, true, true, true⟩ .tableless m =
        tableless_update_ref (reverse_bits w p) (reverse_bits w i) m ^^^ x := rfl
    have eapp : crc_append_bytes ⟨w, p, i, x, true, true, true⟩
          (impl_calculate ⟨w, p, i, x, true, true, true⟩ .tableless m) =
        le_bytes (w / 8)
          (tableless_update_ref (reverse_bits w p) (reverse_bits w i) m ^^^ x) := by
      rw [eD]
      rfl
    rw [eapp]
    have etot : impl_update ⟨w, p, i, x, true, true, true⟩ .tableless
          (cfg.ACTUAL_INIT ⟨w, p, i, x, true, true, true⟩)
          (m ++ le_bytes (w / 8)
            (tableless_update_ref (reverse_bits w p) (reverse_bits w i) m ^^^ x)) =
        bbb_iter_ref (reverse_bits w p) w x :=
      residue_law_core_ref w (reverse_bits w p) (reverse_bits w i) x m h8 h88
        (reverse_bits_lt w p) (reverse_bits_lt w i) hx'
    rw [etot]
    show bbb_iter_ref (reverse_bits w p) w x = bbb_iter_ref (reverse_bits w p) w (x ^^^ 0)
    rw [Nat.xor_zero]

theorem claim_C4_residue_law_witness :
    (crc16_kermit.WIDTH = 8 ∨ crc16_kermit.WIDTH = 16 ∨
      crc16_kermit.WIDTH = 32 ∨ crc16_kermit.WIDTH = 64) ∧
    crc16_kermit.REF_IN = crc16_kermit.REF_OUT ∧
    crc16_kermit.POLY < 2 ^ crc16_kermit.WIDTH ∧
    crc16_kermit.INIT < 2 ^ crc16_kermit.WIDTH ∧
    crc16_kermit.XOR_OUT < 2 ^ crc16_kermit.WIDTH ∧
    (∀ b ∈ [0x31, 0x32], b < 256) ∧
    impl_residue crc16_kermit (impl_update crc16_kermit .table_based crc16_kermit.ACTUAL_INIT
        ([0x31, 0x32] ++ crc_append_bytes crc16_kermit
          (impl_calculate crc16_kermit .table_based [0x31, 0x32]))) =
      residue_const crc16_kermit :=
  ⟨by decide, by decide, by decide, by decide, by decide, by decide,
    claim_C4_residue_law crc16_kermit .table_based [0x31, 0x32]
      (by decide) (by decide) (by decide) (by decide) (by decide) (by decide)⟩

end crc
